import Mathlib

/-!
# Reconstruction server (`server/server.go`): scheduler, estimator, frame scanner, solvers

A shallow embedding of the Go server.  Conventions of the embedding:

* A finite `float64` value is held as the rational it denotes (`ℚ`); the literals
  `0.01`, `0.1`, `90.0`, `1e-12` are the rationals they denote; NaN and the
  infinities are not represented.  Where an outcome depends on how an arithmetic
  result rounds (the admission test of line 738, `normalizeImage`), the rounding of
  an arithmetic result is the parameter `rnd`: `roundFloat64` for `float64`, `id`
  for exact arithmetic.
* A Go `string` is held as the list of its characters (`List Char`).
* The buffered channel `requestQueue` (capacity 100) is the list of the jobs it
  buffers, oldest first.  A worker iteration and a handler iteration are each one
  atomic step on that list.
* Calls that leave the program (`cpu.Percent`, `mem.VirtualMemory`, `cpu.Counts`,
  reading `teste.json`, `json.Unmarshal`, `mat.Norm`) are inputs of the step that
  makes them.
-/

namespace Server

/-! ## Constants (`const ( ... )`, lines 27-37) and the queue capacity (line 40) -/

/-- The Go constant `MAX_ITERATIONS = 5`. -/
def MAX_ITERATIONS : Int := 5

/-- The Go constant `TOL_REQUISITO = 1e-4`. -/
def TOL_REQUISITO : ℚ := 1 / 10000

/-- The Go constant `MIN_ITERATIONS = 10`. -/
def MIN_ITERATIONS : Int := 10

/-- The Go constant `CPU_LIMIT = 90.0`. -/
def CPU_LIMIT : ℚ := 90

/-- The Go constant `MEM_LIMIT = 90.0`. -/
def MEM_LIMIT : ℚ := 90

/-- The Go constant `MIN_DIV = 1e-12`. -/
def MIN_DIV : ℚ := 1 / 1000000000000

/-- Capacity of `requestQueue = make(chan JobRequest, 100)`. -/
def QUEUE_CAPACITY : Nat := 100

/-- The Go constant `time.Second`, in nanoseconds. -/
def Second : Int := 1000000000

/-! ## Data model (lines 52-95) -/

/-- A Go string, as its characters. -/
abbrev GoString := List Char

/-- The Go struct `Payload`. -/
structure Payload where
  Username : GoString
  Algorithm : GoString
  Model : GoString
  Signal : GoString
  Idx : Int
deriving DecidableEq, Repr

/-- The Go struct `JobRequest`; the connection is held as an identifier. -/
structure JobRequest where
  Payload : Server.Payload
  Conn : Nat
deriving DecidableEq, Repr

/-- The Go struct `HistoryEntry`. -/
structure HistoryEntry where
  Algorithm : GoString
  Model : GoString
  Signal : GoString
  Time : ℚ
  CPUUsed : ℚ
  MemUsedBytes : Int
deriving DecidableEq, Repr

/-! ## Rounding of `float64` arithmetic -/

/-- Rounding of a rational to the nearest integer, ties to the even one. -/
def roundHalfEven (x : ℚ) : Int :=
  let lower := ⌊x⌋
  let frac := x - lower
  if frac < 1 / 2 then lower
  else if 1 / 2 < frac then lower + 1
  else if lower % 2 = 0 then lower
  else lower + 1

/-- The `float64` nearest to `x` (IEEE 754 binary64, round to nearest, ties to even):
53 significant bits, the spacing never below `2^(-1074)`.  Results beyond the largest
finite `float64` (which the hardware turns into an infinity) are outside the model. -/
def roundFloat64 (x : ℚ) : ℚ :=
  if x = 0 then 0
  else
    let e := Int.log 2 |x|
    let quantum : ℚ := 2 ^ (max (e - 52) (-1074))
    (roundHalfEven (x / quantum) : ℚ) * quantum

/-! ## The bounded queue: `select { case requestQueue <- job: ... default: ... }` -/

/-- The non-blocking send used at lines 743-747 and 826-831: the job goes to the tail
when the buffer has room (`true`), otherwise the `default` branch runs and the
buffer is untouched (`false`). -/
def trySend (queue : List JobRequest) (job : JobRequest) : List JobRequest × Bool :=
  if queue.length < QUEUE_CAPACITY then (queue ++ [job], true) else (queue, false)

/-! ## `filepath.Base` (Unix separator), `loadHistory`, `estimateResources` -/

/-- Strip trailing slashes, the first loop of `filepath.Base`. -/
def stripTrailingSlashes (path : GoString) : GoString :=
  (path.reverse.dropWhile (fun c => c == '/')).reverse

/-- The text after the last slash, the second loop of `filepath.Base`. -/
def lastElement (path : GoString) : GoString :=
  (path.reverse.takeWhile (fun c => c != '/')).reverse

/-- The library function `filepath.Base` on a Unix host. -/
def Base (path : GoString) : GoString :=
  if path = [] then ['.']
  else
    let last := lastElement (stripTrailingSlashes path)
    if last = [] then ['/'] else last

/-- What opening and decoding `teste.json` can yield. -/
inductive HistoryFile where
  | unopenable : HistoryFile
  | undecodable : HistoryFile
  | decoded (history : List HistoryEntry) : HistoryFile

/-- The Go function `loadHistory` (lines 533-551): both failures yield the empty
history and a nil error. -/
def loadHistory : HistoryFile → Except String (List HistoryEntry)
  | .unopenable => .ok []
  | .undecodable => .ok []
  | .decoded history => .ok history

/-- Results of `cpu.Counts(true)` and of `mem.VirtualMemory().Total`; the source
discards the error of both calls. -/
structure HostInfo where
  cpuCount : Int
  memTotal : Nat

/-- The library function `strings.HasPrefix(s, pre)`. -/
def HasPrefix (s pre : GoString) : Bool :=
  pre.isPrefixOf s

/-- The matching test of the loop at lines 565-570. -/
def entryMatches (modelBase signalBase : GoString) (entry : HistoryEntry) : Bool :=
  Base entry.Model == modelBase && HasPrefix (Base entry.Signal) signalBase

/-- The Go function `estimateResources` (lines 554-587); the result is
`(cpuRequiredPct, memRequiredPct, reg.Time)`.  The two quotients are exact; a zero
core count or memory total, for which Go yields an infinity or NaN, is outside the
model. -/
def estimateResources (file : HistoryFile) (host : HostInfo) (model signal : GoString) :
    ℚ × ℚ × ℚ :=
  match loadHistory file with
  | .error _ => (1 / 100, 1 / 100, 1 / 10)
  | .ok history =>
    if history.length = 0 then (1 / 100, 1 / 100, 1 / 10)
    else
      let modelBase := Base model
      let signalBase := Base signal
      let matching := history.filter (entryMatches modelBase signalBase)
      match matching.getLast? with
      | none => (1 / 100, 1 / 100, 1 / 10)
      | some reg =>
        let cpuRequiredPct := reg.CPUUsed / (host.cpuCount : ℚ)
        let memRequiredPct := ((reg.MemUsedBytes : ℚ) / (host.memTotal : ℚ)) * 100
        (cpuRequiredPct, memRequiredPct, reg.Time)

/-! ## `getCurrentResources` and the worker loop body -/

/-- The Go function `getCurrentResources` (lines 590-607), given what
`cpu.Percent` and `mem.VirtualMemory` returned. -/
def getCurrentResources (cpuPercent : Except String (List ℚ))
    (memInfo : Except String ℚ) : Except String (ℚ × ℚ) :=
  match cpuPercent with
  | .error err => .error err
  | .ok cpuPercent =>
    match memInfo with
    | .error err => .error err
    | .ok usedPercent =>
      let cpuUsage := match cpuPercent with
        | [] => 0
        | first :: _ => first
      .ok (cpuUsage, usedPercent)

/-- Go conversion of a float to an integer type: the fraction is discarded
(truncation toward zero). -/
def truncToInt (x : ℚ) : Int :=
  if 0 ≤ x then ⌊x⌋ else ⌈x⌉

/-- Wrap-around of `int64` arithmetic. -/
def wrapInt64 (x : Int) : Int :=
  (x + 2 ^ 63) % 2 ^ 64 - 2 ^ 63

/-- The duration slept at line 742, in nanoseconds:
`time.Duration(math.Min(timeEstimate, 1.0)) * time.Second`. -/
def sleepDuration (timeEstimate : ℚ) : Int :=
  wrapInt64 (truncToInt (min timeEstimate 1) * Second)

/-- The test of line 738,
`(cpuCurrent+cpuRequired > CPU_LIMIT) || (memCurrent+memRequired > MEM_LIMIT)`:
each sum is rounded by `rnd` before it is compared. -/
def insufficientResources (rnd : ℚ → ℚ) (cpuCurrent memCurrent cpuRequired memRequired : ℚ) :
    Bool :=
  decide (rnd (cpuCurrent + cpuRequired) > CPU_LIMIT)
    || decide (rnd (memCurrent + memRequired) > MEM_LIMIT)

/-- What one pass of the worker loop did with the job it received. -/
inductive WorkerEvent where
  | sampleError (job : JobRequest) : WorkerEvent
  | requeued (job : JobRequest) (slept : Int) : WorkerEvent
  | discarded (job : JobRequest) (slept : Int) : WorkerEvent
  | processed (job : JobRequest) : WorkerEvent
deriving DecidableEq, Repr

/-- What the host hands to one pass of the worker loop. -/
structure PassInputs where
  cpuPercent : Except String (List ℚ)
  memInfo : Except String ℚ
  history : HistoryFile
  host : HostInfo

/-- One pass of `for job := range requestQueue` in `workerProcessItem`
(lines 721-756); `rnd` rounds the sums of the admission test.  `none`: the channel
is empty and the worker blocks.  Otherwise the event of the pass and the channel
buffer after it. -/
def workerProcessItem (rnd : ℚ → ℚ) (env : PassInputs) (queue : List JobRequest) :
    Option (WorkerEvent × List JobRequest) :=
  match queue with
  | [] => none
  | job :: rest =>
    match getCurrentResources env.cpuPercent env.memInfo with
    | .error _ => some (.sampleError job, rest)
    | .ok (cpuCurrent, memCurrent) =>
      match estimateResources env.history env.host job.Payload.Model job.Payload.Signal with
      | (cpuRequired, memRequired, timeEstimate) =>
        if insufficientResources rnd cpuCurrent memCurrent cpuRequired memRequired then
          let slept := sleepDuration timeEstimate
          match trySend rest job with
          | (queue, true) => some (.requeued job slept, queue)
          | (queue, false) => some (.discarded job slept, queue)
        else
          some (.processed job, rest)

/-! ## The connection handler loop body (`handleClient`, lines 769-833) -/

/-- The library function `strings.Index(s, sep)` for a one-character `sep`:
the position of its first occurrence, `-1` when there is none. -/
def Index : GoString → Char → Int
  | [], _ => -1
  | c :: rest, sep =>
    if c = sep then 0
    else
      let i := Index rest sep
      if i = -1 then -1 else i + 1

/-- The library predicate `unicode.IsSpace`. -/
def isSpace (c : Char) : Bool :=
  let r := c.toNat
  r = 0x09 || r = 0x0A || r = 0x0B || r = 0x0C || r = 0x0D || r = 0x20 || r = 0x85 || r = 0xA0
    || r = 0x1680 || (0x2000 ≤ r && r ≤ 0x200A) || r = 0x2028 || r = 0x2029 || r = 0x202F
    || r = 0x205F || r = 0x3000

/-- The library function `strings.TrimSpace`. -/
def TrimSpace (s : GoString) : GoString :=
  ((s.dropWhile isSpace).reverse.dropWhile isSpace).reverse

/-- The slice expression `s[from:]` for an index within bounds. -/
def sliceFrom (s : GoString) (start : Int) : GoString :=
  s.drop start.toNat

/-- Whether the `for` loop goes on with its next pass or is left. -/
inductive LoopControl where
  | next : LoopControl
  | leave : LoopControl
deriving DecidableEq, Repr

/-- What one pass of the read loop did; a text that reached `json.Unmarshal` is
recorded with the event. -/
inductive HandlerEvent where
  | readError : HandlerEvent
  | emptyRead : HandlerEvent
  | exitCommand : HandlerEvent
  | noFirstPipe : HandlerEvent
  | noSecondPipe : HandlerEvent
  | decodeError (jsonStr : GoString) : HandlerEvent
  | enqueued (jsonStr : GoString) (job : JobRequest) : HandlerEvent
  | queueFull (jsonStr : GoString) (job : JobRequest) : HandlerEvent
  | otherData : HandlerEvent
deriving DecidableEq, Repr

/-- The text handed to the JSON decoder in a pass, when the pass reached it. -/
def HandlerEvent.decoderInput : HandlerEvent → Option GoString
  | .decodeError jsonStr => some jsonStr
  | .enqueued jsonStr _ => some jsonStr
  | .queueFull jsonStr _ => some jsonStr
  | _ => none

/-- The job a pass put on the queue, when it put one. -/
def HandlerEvent.dispatched : HandlerEvent → Option JobRequest
  | .enqueued _ job => some job
  | _ => none

/-- Result of one pass of the read loop. -/
structure HandlerPass where
  control : LoopControl
  event : HandlerEvent
  queue : List JobRequest

/-- One pass of the `for` loop of `handleClient` (lines 769-833).  `unmarshal` is
`json.Unmarshal` into a `Payload`; `read` is what `conn.Read` returned, the chunk
`buffer[:n]` or an error. -/
def handleClient (unmarshal : GoString → Option Server.Payload) (conn : Nat)
    (read : Except String GoString) (queue : List JobRequest) : HandlerPass :=
  match read with
  | .error _ => ⟨.leave, .readError, queue⟩
  | .ok data =>
    if data.length = 0 then ⟨.leave, .emptyRead, queue⟩
    else if HasPrefix data ['E', 'X', 'I', 'T'] then ⟨.leave, .exitCommand, queue⟩
    else if HasPrefix data ['2', '_'] then
      let firstPipe := Index data '|'
      if firstPipe = -1 then ⟨.next, .noFirstPipe, queue⟩
      else
        let secondPipe := Index (sliceFrom data (firstPipe + 1)) '|'
        if secondPipe = -1 then ⟨.next, .noSecondPipe, queue⟩
        else
          let secondPipe := firstPipe + 1 + secondPipe
          let jsonStr := sliceFrom data (secondPipe + 1)
          let jsonStr := TrimSpace jsonStr
          match unmarshal jsonStr with
          | none => ⟨.next, .decodeError jsonStr, queue⟩
          | some payload =>
            let job : JobRequest := ⟨payload, conn⟩
            match trySend queue job with
            | (queue, true) => ⟨.next, .enqueued jsonStr job, queue⟩
            | (queue, false) => ⟨.next, .queueFull jsonStr job, queue⟩
    else ⟨.next, .otherData, queue⟩

/-! ## The solvers (`reconstructCGNR`, `reconstructCGNE`, lines 291-459)

An `m`-by-`n` `*mat.Dense` is a function `Fin m → Fin n → ℚ`, a `*mat.VecDense`
of length `k` a function `Fin k → ℚ`.  The library calls are the ones below;
`mat.Norm(v, 2)` is the parameter `norm` of the solvers. -/

/-- The call `dst.MulVec(H, v)`. -/
def MulVec {m n : Nat} (H : Fin m → Fin n → ℚ) (v : Fin n → ℚ) : Fin m → ℚ :=
  fun i => ∑ j, H i j * v j

/-- The call `dst.MulVec(H.T(), v)`. -/
def MulVecT {m n : Nat} (H : Fin m → Fin n → ℚ) (v : Fin m → ℚ) : Fin n → ℚ :=
  fun j => ∑ i, H i j * v i

/-- The call `dst.SubVec(a, b)`. -/
def SubVec {k : Nat} (a b : Fin k → ℚ) : Fin k → ℚ :=
  fun i => a i - b i

/-- The call `dst.AddScaledVec(a, alpha, b)`. -/
def AddScaledVec {k : Nat} (a : Fin k → ℚ) (alpha : ℚ) (b : Fin k → ℚ) : Fin k → ℚ :=
  fun i => a i + alpha * b i

/-- The call `mat.Dot(a, b)`. -/
def Dot {k : Nat} (a b : Fin k → ℚ) : ℚ :=
  ∑ i, a i * b i

/-- The vector `mat.NewVecDense(k, nil)`, all zeros. -/
def zeroVec (k : Nat) : Fin k → ℚ :=
  fun _ => 0

/-- The triple the solvers return: the slice `result`, the iteration count and
`finalError`. -/
structure Reconstruction where
  result : List ℚ
  iterations : Int
  finalError : ℚ
deriving DecidableEq, Repr

/-- The loop variables of `reconstructCGNR`. -/
structure CGNRState (m n : Nat) where
  f : Fin n → ℚ
  r : Fin m → ℚ
  z : Fin n → ℚ
  p : Fin n → ℚ
  numberIterations : Int

/-- The assignments of one pass of the CGNR loop (lines 314-354), pass index `i`. -/
def cgnrPass {m n : Nat} (H : Fin m → Fin n → ℚ) (i : Int) (s : CGNRState m n) :
    CGNRState m n :=
  let w := MulVec H s.p
  let zDot := Dot s.z s.z
  let wDot := Dot w w + MIN_DIV
  let alpha := zDot / wDot
  let fNew := AddScaledVec s.f alpha s.p
  let rNew := AddScaledVec s.r (-alpha) w
  let zNew := MulVecT H rNew
  let zNewDot := Dot zNew zNew
  let beta := zNewDot / (zDot + MIN_DIV)
  let pNew := AddScaledVec zNew beta s.p
  ⟨fNew, rNew, zNew, pNew, i + 1⟩

/-- The loop `for i := 0; i < maxIterations; i++` of `reconstructCGNR`
(lines 313-359) with `remaining` passes left before the loop condition fails. -/
def cgnrLoop {m n : Nat} (norm : (Fin m → ℚ) → ℚ) (H : Fin m → Fin n → ℚ) (tol : ℚ)
    (initialResidualNorm : ℚ) : Nat → Int → CGNRState m n → CGNRState m n
  | 0, _, s => s
  | remaining + 1, i, s =>
    let next := cgnrPass H i s
    let currentResidualNorm := norm next.r
    let relativeError := currentResidualNorm / (initialResidualNorm + MIN_DIV)
    if next.numberIterations ≥ MIN_ITERATIONS ∧ relativeError < tol then next
    else cgnrLoop norm H tol initialResidualNorm remaining (i + 1) next

/-- The state built at lines 294-311 of `reconstructCGNR`. -/
def cgnrInit {m n : Nat} (H : Fin m → Fin n → ℚ) (gVec : Fin m → ℚ) : CGNRState m n :=
  let f := zeroVec n
  let r := SubVec gVec (MulVec H f)
  let z := MulVecT H r
  ⟨f, r, z, z, 0⟩

/-- The Go function `reconstructCGNR` (lines 291-375).  `none` is the panic of the
matrix library on an empty vector or on `len(g)` different from the row count. -/
def reconstructCGNR {m n : Nat} (norm : (Fin m → ℚ) → ℚ) (H : Fin m → Fin n → ℚ)
    (g : List ℚ) (maxIterations : Int) (tol : ℚ) : Option Reconstruction :=
  if h : 0 < m ∧ 0 < n ∧ g.length = m then
    let gVec : Fin m → ℚ := fun i => g.get (i.cast h.2.2.symm)
    let init := cgnrInit H gVec
    let initialResidualNorm := norm init.r
    let final := cgnrLoop norm H tol initialResidualNorm maxIterations.toNat 0 init
    let finalResidual := SubVec gVec (MulVec H final.f)
    let finalError := norm finalResidual / (norm gVec + MIN_DIV)
    some ⟨List.ofFn final.f, final.numberIterations, finalError⟩
  else none

/-- The loop variables of `reconstructCGNE`. -/
structure CGNEState (m n : Nat) where
  f : Fin n → ℚ
  r : Fin m → ℚ
  p : Fin n → ℚ
  finalIterations : Int

/-- The assignments of one pass of the CGNE loop after the `alphaDen` test
(lines 409-438), pass index `i`. -/
def cgnePass {m n : Nat} (H : Fin m → Fin n → ℚ) (i : Int) (s : CGNEState m n)
    (Hp : Fin m → ℚ) (alphaNum alphaDen : ℚ) : CGNEState m n :=
  let alpha := alphaNum / alphaDen
  let fNew := AddScaledVec s.f alpha s.p
  let rNew := AddScaledVec s.r (-alpha) Hp
  let betaNum := Dot rNew rNew
  let betaDen := Dot s.r s.r + MIN_DIV
  let beta := betaNum / betaDen
  let HT_rNew := MulVecT H rNew
  let pNew := AddScaledVec HT_rNew beta s.p
  ⟨fNew, rNew, pNew, i + 1⟩

/-- The loop `for i := 0; i < maxIterations; i++` of `reconstructCGNE`
(lines 397-443) with `remaining` passes left before the loop condition fails. -/
def cgneLoop {m n : Nat} (norm : (Fin m → ℚ) → ℚ) (H : Fin m → Fin n → ℚ) (tol : ℚ)
    (initialResidualNorm : ℚ) : Nat → Int → CGNEState m n → CGNEState m n
  | 0, _, s => s
  | remaining + 1, i, s =>
    let Hp := MulVec H s.p
    let alphaNum := Dot s.r s.r
    let alphaDen := Dot Hp Hp + MIN_DIV
    if alphaDen < MIN_DIV then s
    else
      let next := cgnePass H i s Hp alphaNum alphaDen
      let currentResidualNorm := norm next.r
      let relativeError := currentResidualNorm / (initialResidualNorm + MIN_DIV)
      if next.finalIterations ≥ MIN_ITERATIONS ∧ relativeError < tol then next
      else cgneLoop norm H tol initialResidualNorm remaining (i + 1) next

/-- The state built at lines 381-395 of `reconstructCGNE`. -/
def cgneInit {m n : Nat} (H : Fin m → Fin n → ℚ) (gVec : Fin m → ℚ) : CGNEState m n :=
  let f := zeroVec n
  let r := SubVec gVec (MulVec H f)
  let p := MulVecT H r
  ⟨f, r, p, 0⟩

/-- The Go function `reconstructCGNE` (lines 378-459).  `none` is the panic of the
matrix library on an empty vector or on `len(g)` different from the row count. -/
def reconstructCGNE {m n : Nat} (norm : (Fin m → ℚ) → ℚ) (H : Fin m → Fin n → ℚ)
    (g : List ℚ) (maxIterations : Int) (tol : ℚ) : Option Reconstruction :=
  if h : 0 < m ∧ 0 < n ∧ g.length = m then
    let gVec : Fin m → ℚ := fun i => g.get (i.cast h.2.2.symm)
    let init := cgneInit H gVec
    let initialResidualNorm := norm init.r
    let final := cgneLoop norm H tol initialResidualNorm maxIterations.toNat 0 init
    let finalResidual := SubVec gVec (MulVec H final.f)
    let finalError := norm finalResidual / (norm gVec + MIN_DIV)
    some ⟨List.ofFn final.f, final.finalIterations, finalError⟩
  else none

/-! ## `normalizeImage` (lines 461-498) -/

/-- One pass of the loop of lines 469-476 on the pair `(fMin, fMax)`. -/
def minMaxStep (acc : ℚ × ℚ) (val : ℚ) : ℚ × ℚ :=
  (if val < acc.1 then val else acc.1, if val > acc.2 then val else acc.2)

/-- The Go conversion `uint8(x)` of a float: the fraction is discarded. -/
def toUint8 (x : ℚ) : Nat :=
  (truncToInt x % 256).toNat

/-- The body of the loop of lines 481-490 for one element. -/
def normalizePixel (rnd : ℚ → ℚ) (fMin scale val : ℚ) : Nat :=
  let normalized := rnd (rnd (val - fMin) * scale)
  let normalized := if normalized < 0 then 0 else normalized
  let normalized := if normalized > 255 then 255 else normalized
  toUint8 normalized

/-- The Go function `normalizeImage` (lines 462-498); `rnd` rounds the result of each
floating-point operation.  The `nil` result for the empty input is the empty list. -/
def normalizeImage (rnd : ℚ → ℚ) (f : List ℚ) : List Nat :=
  match f with
  | [] => []
  | first :: _ =>
    match f.foldl minMaxStep (first, first) with
    | (fMin, fMax) =>
      if fMax ≠ fMin then
        let scale := rnd (255 / rnd (fMax - fMin))
        f.map (normalizePixel rnd fMin scale)
      else
        f.map (fun _ => 128)

/-! ## Reference notions used to state the properties -/

/-- The text after the first occurrence of `sep` (empty when there is none). -/
def afterFirst (sep : Char) : GoString → GoString
  | [] => []
  | c :: rest => if c = sep then rest else afterFirst sep rest

/-- The text after the second `|` of a chunk. -/
def afterSecondPipe (data : GoString) : GoString :=
  afterFirst '|' (afterFirst '|' data)

/-- The matching rule in the words of the specification: the model base-names are
equal and the entry's signal base-name is a prefix of the request's. -/
def specEntryMatches (model signal : GoString) (entry : HistoryEntry) : Bool :=
  Base entry.Model == Base model && HasPrefix (Base signal) (Base entry.Signal)

/-- The tracked residual and `z` of a CGNR state are those of its iterate `f`:
`r = g - H*f` and `z = H^T * r`. -/
def cgnrTracksResidual {m n : Nat} (H : Fin m → Fin n → ℚ) (gVec : Fin m → ℚ)
    (s : CGNRState m n) : Prop :=
  s.r = SubVec gVec (MulVec H s.f) ∧ s.z = MulVecT H s.r

/-- The tracked residual of a CGNE state is that of its iterate `f`: `r = g - H*f`. -/
def cgneTracksResidual {m n : Nat} (H : Fin m → Fin n → ℚ) (gVec : Fin m → ℚ)
    (s : CGNEState m n) : Prop :=
  s.r = SubVec gVec (MulVec H s.f)

/-! ## Sample inputs used by the closed statements -/

/-- A job of the sample runs. -/
def jobA : JobRequest :=
  ⟨⟨"ana".toList, "CGNR".toList, "models/H-1.csv".toList, "client/signals/signal-1".toList, 1⟩, 7⟩

/-- A second job of the sample runs. -/
def jobB : JobRequest :=
  ⟨⟨"bia".toList, "CGNE".toList, "models/H-1.csv".toList, "client/signals/signal-2".toList, 2⟩, 7⟩

/-- A history entry for `jobA` whose cost is 20 CPU points over 4 cores (5 %) and
50 of 1000 bytes (5 %). -/
def lightEntry : HistoryEntry :=
  ⟨"CGNR".toList, "models/H-1.csv".toList, "signal-1.csv".toList, 1 / 2, 20, 50⟩

/-- A history entry for `jobA` whose cost is 60 CPU points over 4 cores (15 %) and
50 of 1000 bytes (5 %). -/
def heavyEntry : HistoryEntry :=
  ⟨"CGNR".toList, "models/H-1.csv".toList, "signal-1.csv".toList, 1 / 2, 60, 50⟩

/-- A host with 4 logical cores and 1000 bytes of memory. -/
def sampleHost : HostInfo := ⟨4, 1000⟩

/-- A pass at 80 % CPU and 80 % memory with the light history. -/
def lightPass : PassInputs := ⟨.ok [80], .ok 80, .decoded [lightEntry], sampleHost⟩

/-- A pass at 80 % CPU and 80 % memory with the heavy history. -/
def heavyPass : PassInputs := ⟨.ok [80], .ok 80, .decoded [heavyEntry], sampleHost⟩

/-- A history entry for `jobA` whose cost is `40 + 2^(-47)` CPU points over 4 cores,
that is `10 + 2^(-49)` %, the `float64` next above 10, and 50 of 1000 bytes (5 %). -/
def boundaryEntry : HistoryEntry :=
  ⟨"CGNR".toList, "models/H-1.csv".toList, "signal-1.csv".toList, 1 / 2, 40 + 1 / 2 ^ 47, 50⟩

/-- A pass at 80 % CPU and 80 % memory with the boundary history. -/
def boundaryPass : PassInputs := ⟨.ok [80], .ok 80, .decoded [boundaryEntry], sampleHost⟩

/-- A pass in which `cpu.Percent` fails. -/
def failedSamplePass : PassInputs :=
  ⟨.error "cpu.Percent failed", .ok 80, .decoded [lightEntry], sampleHost⟩

/-- The 2-by-2 identity matrix. -/
def identity2 : Fin 2 → Fin 2 → ℚ :=
  fun i j => if i = j then 1 else 0

/-- A stand-in for `mat.Norm(v, 2)` on sample runs: the sum of the absolute values. -/
def sumAbs {k : Nat} (v : Fin k → ℚ) : ℚ :=
  ∑ i, |v i|

/-- The JSON job record of `jobA`. -/
def recordA : GoString :=
  ("\x7b\"username\":\"ana\",\"algorithm\":\"CGNR\",\"model\":\"models/H-1.csv\"," ++
    "\"signal\":\"client/signals/signal-1\",\"idx\":1\x7d").toList

/-- The JSON job record of `jobB`. -/
def recordB : GoString :=
  ("\x7b\"username\":\"bia\",\"algorithm\":\"CGNE\",\"model\":\"models/H-1.csv\"," ++
    "\"signal\":\"client/signals/signal-2\",\"idx\":2\x7d").toList

/-- The data frame carrying `recordA`, newline-terminated. -/
def frameA : GoString :=
  "2_|job|".toList ++ recordA ++ ['\n']

/-- The data frame carrying `recordB`, newline-terminated. -/
def frameB : GoString :=
  "2_|job|".toList ++ recordB ++ ['\n']

/-- A decoder for the sample runs, standing for `json.Unmarshal` on the texts that
occur in them: the two job records decode to their payloads; any other text (a
record followed by further text, a truncated or empty text) is rejected. -/
def sampleUnmarshal (text : GoString) : Option Server.Payload :=
  if text = recordA then some jobA.Payload
  else if text = recordB then some jobB.Payload
  else none

/-- A history entry whose signal base-name, `signal-1`, is a proper prefix of the
request signal base-name `signal-10`. -/
def shortEntry : HistoryEntry :=
  ⟨"CGNR".toList, "models/H-1.csv".toList, "client/signals/signal-1".toList, 3, 20, 50⟩

/-- A history entry of another model. -/
def otherEntry : HistoryEntry :=
  ⟨"CGNE".toList, "models/H-2.csv".toList, "signal-1.csv".toList, 9, 40, 70⟩

end Server

namespace Server

/-! ## Rounding of `float64` arithmetic: facts used below -/

theorem roundHalfEven_of_near (x : ℚ) (n : Int) (h : |x - n| < 1 / 2) :
    roundHalfEven x = n := by
  rw [abs_lt] at h
  obtain ⟨hlo, hhi⟩ := h
  by_cases hge : (n : ℚ) ≤ x
  · have hfloor : ⌊x⌋ = n := Int.floor_eq_iff.mpr ⟨hge, by linarith⟩
    have hfrac : x - (n : ℚ) < 1 / 2 := by linarith
    simp only [roundHalfEven, hfloor, hfrac, if_true]
  · have hfloor : ⌊x⌋ = n - 1 := by
      apply Int.floor_eq_iff.mpr
      push_cast
      constructor <;> linarith
    have h1 : ¬ (x - ((n - 1 : Int) : ℚ) < 1 / 2) := by push_cast; linarith
    have h2 : 1 / 2 < x - ((n - 1 : Int) : ℚ) := by push_cast; linarith
    simp only [roundHalfEven, hfloor, h1, h2, if_true, if_false]
    omega

theorem roundFloat64_of_bounds (x : ℚ) (e n : Int) (hx : 0 < x)
    (hlo : (2 : ℚ) ^ e ≤ x) (hhi : x < (2 : ℚ) ^ (e + 1)) (he : -1022 ≤ e)
    (hn : |x / (2 : ℚ) ^ (e - 52) - n| < 1 / 2) :
    roundFloat64 x = (n : ℚ) * (2 : ℚ) ^ (e - 52) := by
  have hlog : Int.log 2 |x| = e := by
    rw [abs_of_pos hx]
    apply le_antisymm
    · have := (Int.lt_zpow_iff_log_lt (R := ℚ) (b := 2) (by norm_num) hx (x := e + 1)).mp
        (by exact_mod_cast hhi)
      omega
    · exact (Int.zpow_le_iff_le_log (R := ℚ) (b := 2) (by norm_num) hx).mp
        (by exact_mod_cast hlo)
  have hmax : max (e - 52) (-1074) = e - 52 := max_eq_left (by omega)
  simp only [roundFloat64, hx.ne', if_false, hlog, hmax]
  rw [roundHalfEven_of_near _ n hn]

theorem roundFloat64_zero : roundFloat64 0 = 0 := by
  simp [roundFloat64]

theorem roundHalfEven_ge_floor (x : ℚ) : ⌊x⌋ ≤ roundHalfEven x := by
  simp only [roundHalfEven]
  split_ifs <;> omega

theorem roundHalfEven_le_floor_succ (x : ℚ) : roundHalfEven x ≤ ⌊x⌋ + 1 := by
  simp only [roundHalfEven]
  split_ifs <;> omega

theorem roundHalfEven_ge (x : ℚ) (N : Int) (h : (N : ℚ) ≤ x) : N ≤ roundHalfEven x :=
  le_trans (Int.le_floor.mpr h) (roundHalfEven_ge_floor x)

theorem roundHalfEven_le_of_le_half (x : ℚ) (N : Int) (heven : N % 2 = 0)
    (h : x ≤ (N : ℚ) + 1 / 2) : roundHalfEven x ≤ N := by
  have hfl : ⌊x⌋ ≤ N := by
    have : ⌊x⌋ < N + 1 := Int.floor_lt.mpr (by push_cast; linarith)
    omega
  rcases lt_or_eq_of_le hfl with hlt | heq
  · have := roundHalfEven_le_floor_succ x
    omega
  · have hfrac : x - (N : ℚ) ≤ 1 / 2 := by linarith
    simp only [roundHalfEven, heq]
    split_ifs with h1 h2
    · exact le_refl _
    · exact absurd h2 (not_lt.mpr hfrac)
    · exact le_refl _

theorem roundHalfEven_le (x : ℚ) (N : Int) (h : x ≤ (N : ℚ)) : roundHalfEven x ≤ N := by
  rcases lt_or_eq_of_le (Int.floor_le_floor h) with hlt | heq
  · rw [Int.floor_intCast] at hlt
    have := roundHalfEven_le_floor_succ x
    omega
  · rw [Int.floor_intCast] at heq
    have hfrac : x - (N : ℚ) < 1 / 2 := by linarith
    simp only [roundHalfEven, heq, hfrac, if_true]
    exact le_refl _

theorem roundHalfEven_gt_of_gt_half (x : ℚ) (N : Int) (h : (N : ℚ) + 1 / 2 < x) :
    N + 1 ≤ roundHalfEven x := by
  have hfl : N ≤ ⌊x⌋ := Int.le_floor.mpr (by linarith)
  rcases lt_or_eq_of_le hfl with hlt | heq
  · have := roundHalfEven_ge_floor x
    omega
  · have h1 : ¬ (x - ((⌊x⌋ : Int) : ℚ) < 1 / 2) := by rw [← heq]; linarith
    have h2 : 1 / 2 < x - ((⌊x⌋ : Int) : ℚ) := by rw [← heq]; linarith
    simp only [roundHalfEven, h1, h2, if_true, if_false]
    omega

theorem log_eq_of_bounds (x : ℚ) (e : Int) (hx : 0 < x) (hlo : (2 : ℚ) ^ e ≤ x)
    (hhi : x < (2 : ℚ) ^ (e + 1)) : Int.log 2 |x| = e := by
  rw [abs_of_pos hx]
  apply le_antisymm
  · have := (Int.lt_zpow_iff_log_lt (R := ℚ) (b := 2) (by norm_num) hx (x := e + 1)).mp
      (by exact_mod_cast hhi)
    omega
  · exact (Int.zpow_le_iff_le_log (R := ℚ) (b := 2) (by norm_num) hx).mp
      (by exact_mod_cast hlo)

theorem roundFloat64_binade (x : ℚ) (e : Int) (hx : 0 < x) (hlo : (2 : ℚ) ^ e ≤ x)
    (hhi : x < (2 : ℚ) ^ (e + 1)) (he : -1022 ≤ e) :
    roundFloat64 x = (roundHalfEven (x / (2 : ℚ) ^ (e - 52)) : ℚ) * (2 : ℚ) ^ (e - 52) := by
  have hmax : max (e - 52) (-1074) = e - 52 := max_eq_left (by omega)
  simp only [roundFloat64, hx.ne', if_false, log_eq_of_bounds x e hx hlo hhi, hmax]

theorem roundFloat64_le_90 (x : ℚ) (h : x ≤ 90 + 1 / 2 ^ 47) : roundFloat64 x ≤ 90 := by
  rcases lt_trichotomy x 0 with hneg | hzero | hpos
  · -- a negative value rounds to a value that is not positive
    have hq : (0 : ℚ) < 2 ^ (max (Int.log 2 |x| - 52) (-1074)) := zpow_pos (by norm_num) _
    have hle : roundHalfEven (x / 2 ^ (max (Int.log 2 |x| - 52) (-1074))) ≤ 0 :=
      roundHalfEven_le _ 0 (by
        push_cast
        exact (div_neg_of_neg_of_pos hneg hq).le)
    have hcast : (roundHalfEven (x / 2 ^ (max (Int.log 2 |x| - 52) (-1074))) : ℚ) ≤ 0 := by
      exact_mod_cast hle
    simp only [roundFloat64, hneg.ne, if_false]
    have := mul_nonpos_of_nonpos_of_nonneg hcast hq.le
    linarith
  · rw [hzero]; simp [roundFloat64]
  · by_cases h90 : x ≤ 90
    · -- below 90 the value 90 is a multiple of the spacing
      have hlog : Int.log 2 |x| < 7 := by
        rw [abs_of_pos hpos]
        exact (Int.lt_zpow_iff_log_lt (R := ℚ) (b := 2) (by norm_num) hpos).mp
          (by norm_num; linarith)
      obtain ⟨n, hn⟩ : ∃ n : Nat, max (Int.log 2 |x| - 52) (-1074) = -(n : Int) :=
        ⟨(-(max (Int.log 2 |x| - 52) (-1074))).toNat, by omega⟩
      have hq : (2 : ℚ) ^ (max (Int.log 2 |x| - 52) (-1074)) = ((2 : ℚ) ^ n)⁻¹ := by
        rw [hn, zpow_neg, zpow_natCast]
      have hpow : (0 : ℚ) < 2 ^ n := pow_pos (by norm_num) n
      have hle : roundHalfEven (x / ((2 : ℚ) ^ n)⁻¹) ≤ 90 * 2 ^ n :=
        roundHalfEven_le _ _ (by
          push_cast
          rw [div_inv_eq_mul]
          exact mul_le_mul_of_nonneg_right h90 hpow.le)
      have hcast : (roundHalfEven (x / ((2 : ℚ) ^ n)⁻¹) : ℚ) ≤ 90 * 2 ^ n := by
        exact_mod_cast hle
      simp only [roundFloat64, hpos.ne', if_false, hq]
      calc (roundHalfEven (x / ((2 : ℚ) ^ n)⁻¹) : ℚ) * ((2 : ℚ) ^ n)⁻¹
          ≤ 90 * 2 ^ n * ((2 : ℚ) ^ n)⁻¹ :=
            mul_le_mul_of_nonneg_right hcast (inv_nonneg.mpr hpow.le)
        _ = 90 := by field_simp
    · -- between 90 and 90 + 2^(-47): the binade of 64, and 90 * 2^46 is even
      have h90' : 90 < x := not_le.mp h90
      rw [roundFloat64_binade x 6 hpos (by norm_num; linarith) (by norm_num; linarith)
        (by norm_num)]
      have hle : roundHalfEven (x / (2 : ℚ) ^ ((6 : Int) - 52)) ≤ 90 * 2 ^ 46 :=
        roundHalfEven_le_of_le_half _ _ (by norm_num) (by
          push_cast
          norm_num
          linarith)
      have hcast : (roundHalfEven (x / (2 : ℚ) ^ ((6 : Int) - 52)) : ℚ) ≤ 90 * 2 ^ 46 := by
        exact_mod_cast hle
      have hq : (0 : ℚ) ≤ (2 : ℚ) ^ ((6 : Int) - 52) := by norm_num
      calc (roundHalfEven (x / (2 : ℚ) ^ ((6 : Int) - 52)) : ℚ) * (2 : ℚ) ^ ((6 : Int) - 52)
          ≤ 90 * 2 ^ 46 * (2 : ℚ) ^ ((6 : Int) - 52) := mul_le_mul_of_nonneg_right hcast hq
        _ = 90 := by norm_num

theorem roundFloat64_gt_90 (x : ℚ) (h : 90 + 1 / 2 ^ 47 < x) : 90 < roundFloat64 x := by
  have hpos : 0 < x := by
    have : (0 : ℚ) < 90 + 1 / 2 ^ 47 := by norm_num
    linarith
  by_cases h128 : x < 128
  · rw [roundFloat64_binade x 6 hpos (by norm_num; linarith) (by norm_num; linarith)
      (by norm_num)]
    have hge : 90 * 2 ^ 46 + 1 ≤ roundHalfEven (x / (2 : ℚ) ^ ((6 : Int) - 52)) :=
      roundHalfEven_gt_of_gt_half _ _ (by
        push_cast
        norm_num
        linarith)
    have hcast : ((90 * 2 ^ 46 + 1 : Int) : ℚ)
        ≤ (roundHalfEven (x / (2 : ℚ) ^ ((6 : Int) - 52)) : ℚ) := by
      exact_mod_cast hge
    have hq : (0 : ℚ) ≤ (2 : ℚ) ^ ((6 : Int) - 52) := by norm_num
    calc (90 : ℚ) < ((90 * 2 ^ 46 + 1 : Int) : ℚ) * (2 : ℚ) ^ ((6 : Int) - 52) := by norm_num
      _ ≤ (roundHalfEven (x / (2 : ℚ) ^ ((6 : Int) - 52)) : ℚ) * (2 : ℚ) ^ ((6 : Int) - 52) :=
          mul_le_mul_of_nonneg_right hcast hq
  · have h128' : (128 : ℚ) ≤ x := not_lt.mp h128
    have hlo : (2 : ℚ) ^ Int.log 2 x ≤ x := by
      exact_mod_cast Int.zpow_log_le_self (R := ℚ) (b := 2) (by norm_num) hpos
    have hhi : x < (2 : ℚ) ^ (Int.log 2 x + 1) := by
      exact_mod_cast Int.lt_zpow_succ_log_self (R := ℚ) (b := 2) (by norm_num) x
    have he : 7 ≤ Int.log 2 x :=
      (Int.zpow_le_iff_le_log (R := ℚ) (b := 2) (by norm_num) hpos).mp (by norm_num; linarith)
    rw [roundFloat64_binade x (Int.log 2 x) hpos hlo hhi (by omega)]
    have hq : (0 : ℚ) < (2 : ℚ) ^ (Int.log 2 x - 52) := zpow_pos (by norm_num) _
    have hsplit : (2 : ℚ) ^ Int.log 2 x = 2 ^ (52 : Int) * (2 : ℚ) ^ (Int.log 2 x - 52) := by
      rw [← zpow_add₀ (by norm_num : (2 : ℚ) ≠ 0)]
      congr 1
      omega
    have hge : (2 : Int) ^ 52 ≤ roundHalfEven (x / (2 : ℚ) ^ (Int.log 2 x - 52)) :=
      roundHalfEven_ge _ _ (by
        push_cast
        rw [le_div_iff₀ hq]
        have : (4503599627370496 : ℚ) = (2 : ℚ) ^ (52 : Int) := by norm_num
        rw [this, ← hsplit]
        exact hlo)
    have hcast : (((2 : Int) ^ 52 : Int) : ℚ)
        ≤ (roundHalfEven (x / (2 : ℚ) ^ (Int.log 2 x - 52)) : ℚ) := by
      exact_mod_cast hge
    have h7 : (128 : ℚ) ≤ (2 : ℚ) ^ Int.log 2 x := by
      have : (2 : ℚ) ^ (7 : Int) ≤ (2 : ℚ) ^ Int.log 2 x :=
        zpow_le_zpow_right₀ (by norm_num) he
      norm_num at this
      exact this
    calc (90 : ℚ) < 128 := by norm_num
      _ ≤ (2 : ℚ) ^ Int.log 2 x := h7
      _ = (((2 : Int) ^ 52 : Int) : ℚ) * (2 : ℚ) ^ (Int.log 2 x - 52) := by
          rw [hsplit]; norm_num
      _ ≤ (roundHalfEven (x / (2 : ℚ) ^ (Int.log 2 x - 52)) : ℚ)
            * (2 : ℚ) ^ (Int.log 2 x - 52) := mul_le_mul_of_nonneg_right hcast hq.le

/-- The `float64` sum compared with the ceiling at line 738: a sum rounds to at most
90 exactly when the exact sum is at most `90 + 2^(-47)`, half a spacing above 90. -/
theorem roundFloat64_le_90_iff (x : ℚ) : roundFloat64 x ≤ 90 ↔ x ≤ 90 + 1 / 2 ^ 47 := by
  constructor
  · intro h
    by_contra hx
    exact absurd h (not_le.mpr (roundFloat64_gt_90 x (not_le.mp hx)))
  · exact roundFloat64_le_90 x

theorem float64_grid_64 (c : ℚ) (hc : roundFloat64 c = c) (hlo : 64 ≤ c) (hhi : c < 128) :
    ∃ j : Int, c = (j : ℚ) / 2 ^ 46 := by
  have hpos : 0 < c := by linarith
  have h := roundFloat64_binade c 6 hpos (by norm_num; linarith) (by norm_num; linarith)
    (by norm_num)
  rw [hc] at h
  refine ⟨roundHalfEven (c / (2 : ℚ) ^ ((6 : Int) - 52)), ?_⟩
  have hq : (2 : ℚ) ^ ((6 : Int) - 52) = 1 / 2 ^ 46 := by norm_num
  rw [hq] at h ⊢
  rw [div_eq_mul_one_div]
  exact h

/-- For a `float64` value `c` and an estimate within `10^(-18)` of 0.01 (the literal
`0.01` itself or its `float64`), the `float64` sum exceeds 90 exactly when `c` is
above 89.99. -/
theorem float64_sum_default_gt_90 (c d : ℚ) (hc : roundFloat64 c = c)
    (hd : |d - 1 / 100| ≤ 1 / 10 ^ 18) :
    90 < roundFloat64 (c + d) ↔ 8999 / 100 < c := by
  rw [← not_le, roundFloat64_le_90_iff, not_le]
  obtain ⟨hd1, hd2⟩ := abs_le.mp hd
  have hgrid : c ≤ 6332483288547983 / 2 ^ 46 ∨ (6332483288547983 + 1) / 2 ^ 46 ≤ c := by
    by_cases h64 : c < 64
    · left
      have : (64 : ℚ) ≤ 6332483288547983 / 2 ^ 46 := by norm_num
      linarith
    · by_cases h128 : c < 128
      · obtain ⟨j, hj⟩ := float64_grid_64 c hc (not_lt.mp h64) h128
        rcases le_or_lt j 6332483288547983 with hle | hgt
        · left
          rw [hj]
          have : (j : ℚ) ≤ 6332483288547983 := by exact_mod_cast hle
          exact div_le_div_of_nonneg_right this (by norm_num)
        · right
          rw [hj]
          have : (6332483288547983 + 1 : ℚ) ≤ (j : ℚ) := by exact_mod_cast hgt
          exact div_le_div_of_nonneg_right this (by norm_num)
      · right
        have : (6332483288547983 + 1 : ℚ) / 2 ^ 46 ≤ 128 := by norm_num
        linarith [not_lt.mp h128]
  have hk1 : (6332483288547983 : ℚ) / 2 ^ 46 ≤ 8999 / 100 := by norm_num
  have hk2 : (8999 : ℚ) / 100 < (6332483288547983 + 1) / 2 ^ 46 := by norm_num
  have hk3 : (6332483288547983 : ℚ) / 2 ^ 46 + 1 / 100 + 1 / 10 ^ 18 ≤ 90 + 1 / 2 ^ 47 := by
    norm_num
  have hk4 : (90 : ℚ) + 1 / 2 ^ 47 < (6332483288547983 + 1) / 2 ^ 46 + 1 / 100 - 1 / 10 ^ 18 := by
    norm_num
  rcases hgrid with hle | hge
  · constructor
    · intro h; linarith
    · intro h; linarith
  · constructor
    · intro _; linarith
    · intro _; linarith

theorem roundFloat64_default_near : |roundFloat64 (1 / 100) - 1 / 100| ≤ 1 / 10 ^ 18 := by
  rw [roundFloat64_of_bounds (1 / 100) (-7) 5764607523034235 (by norm_num) (by norm_num)
    (by norm_num) (by norm_num) (by norm_num [abs_lt])]
  norm_num [abs_le]

/-! ## Scheduler: admission, bounded queue, sampling failure, deferral delay -/

theorem trySend_of_lt (queue : List JobRequest) (job : JobRequest)
    (h : queue.length < 100) : trySend queue job = (queue ++ [job], true) := by
  simp [trySend, QUEUE_CAPACITY, h]

theorem trySend_of_ge (queue : List JobRequest) (job : JobRequest)
    (h : 100 ≤ queue.length) : trySend queue job = (queue, false) := by
  have h' : ¬ queue.length < 100 := by omega
  simp [trySend, QUEUE_CAPACITY, h']

theorem trySend_length_le (queue : List JobRequest) (job : JobRequest)
    (h : queue.length ≤ 100) : (trySend queue job).1.length ≤ 100 := by
  by_cases hlt : queue.length < 100
  · rw [trySend_of_lt queue job hlt]
    simp only [List.length_append, List.length_singleton]
    omega
  · rw [trySend_of_ge queue job (by omega)]
    exact h

theorem insufficientResources_eq_false (rnd : ℚ → ℚ)
    (cpuCurrent memCurrent cpuRequired memRequired : ℚ) :
    insufficientResources rnd cpuCurrent memCurrent cpuRequired memRequired = false ↔
      rnd (cpuCurrent + cpuRequired) ≤ 90 ∧ rnd (memCurrent + memRequired) ≤ 90 := by
  simp [insufficientResources, CPU_LIMIT, MEM_LIMIT]

theorem estimate_lightPass :
    estimateResources lightPass.history lightPass.host jobA.Payload.Model jobA.Payload.Signal
      = (5, 5, 1 / 2) := by
  have hm : entryMatches (Base jobA.Payload.Model) (Base jobA.Payload.Signal) lightEntry
      = true := by decide
  simp only [estimateResources, lightPass, loadHistory, List.filter_cons, hm]
  norm_num [lightEntry, sampleHost]

theorem estimate_heavyPass :
    estimateResources heavyPass.history heavyPass.host jobA.Payload.Model jobA.Payload.Signal
      = (15, 5, 1 / 2) := by
  have hm : entryMatches (Base jobA.Payload.Model) (Base jobA.Payload.Signal) heavyEntry
      = true := by decide
  simp only [estimateResources, heavyPass, loadHistory, List.filter_cons, hm]
  norm_num [heavyEntry, sampleHost]

theorem estimate_boundaryPass :
    estimateResources boundaryPass.history boundaryPass.host jobA.Payload.Model
      jobA.Payload.Signal = (10 + 1 / 2 ^ 49, 5, 1 / 2) := by
  have hm : entryMatches (Base jobA.Payload.Model) (Base jobA.Payload.Signal) boundaryEntry
      = true := by decide
  simp only [estimateResources, boundaryPass, loadHistory, List.filter_cons, hm]
  norm_num [boundaryEntry, sampleHost]

theorem workerProcessItem_sampled (rnd : ℚ → ℚ) (env : PassInputs) (job : JobRequest)
    (rest : List JobRequest) (cpuCurrent memCurrent cpuRequired memRequired timeEstimate : ℚ)
    (hsample : getCurrentResources env.cpuPercent env.memInfo = .ok (cpuCurrent, memCurrent))
    (hestimate : estimateResources env.history env.host job.Payload.Model job.Payload.Signal
      = (cpuRequired, memRequired, timeEstimate)) :
    workerProcessItem rnd env (job :: rest) =
      if insufficientResources rnd cpuCurrent memCurrent cpuRequired memRequired then
        (match trySend rest job with
          | (queue, true) => some (.requeued job (sleepDuration timeEstimate), queue)
          | (queue, false) => some (.discarded job (sleepDuration timeEstimate), queue))
      else some (.processed job, rest) := by
  simp only [workerProcessItem, hsample, hestimate]

theorem workerProcessItem_admitted (rnd : ℚ → ℚ) (env : PassInputs) (job : JobRequest)
    (rest : List JobRequest) (cpuCurrent memCurrent cpuRequired memRequired timeEstimate : ℚ)
    (hsample : getCurrentResources env.cpuPercent env.memInfo = .ok (cpuCurrent, memCurrent))
    (hestimate : estimateResources env.history env.host job.Payload.Model job.Payload.Signal
      = (cpuRequired, memRequired, timeEstimate))
    (hins : insufficientResources rnd cpuCurrent memCurrent cpuRequired memRequired = false) :
    workerProcessItem rnd env (job :: rest) = some (.processed job, rest) := by
  rw [workerProcessItem_sampled rnd env job rest _ _ _ _ _ hsample hestimate, hins]
  rfl

theorem workerProcessItem_deferred (rnd : ℚ → ℚ) (env : PassInputs) (job : JobRequest)
    (rest : List JobRequest) (cpuCurrent memCurrent cpuRequired memRequired timeEstimate : ℚ)
    (hsample : getCurrentResources env.cpuPercent env.memInfo = .ok (cpuCurrent, memCurrent))
    (hestimate : estimateResources env.history env.host job.Payload.Model job.Payload.Signal
      = (cpuRequired, memRequired, timeEstimate))
    (hins : insufficientResources rnd cpuCurrent memCurrent cpuRequired memRequired = true) :
    workerProcessItem rnd env (job :: rest) =
      if rest.length < 100 then
        some (.requeued job (sleepDuration timeEstimate), rest ++ [job])
      else some (.discarded job (sleepDuration timeEstimate), rest) := by
  rw [workerProcessItem_sampled rnd env job rest _ _ _ _ _ hsample hestimate, hins]
  by_cases hlt : rest.length < 100
  · simp [trySend_of_lt rest job hlt, hlt]
  · simp [trySend_of_ge rest job (by omega), hlt]

/-- C1, as stated, fails at the ceiling: with `cpuCurrent = 80` and the `float64`
estimate `cpuRequired = 10 + 2^(-49)` (memory at `80 + 5`) the sum
`cpuCurrent + cpuRequired` is above 90, yet the worker runs `processJob`: the
`float64` sum that line 738 compares is 90. -/
theorem C1_exact_sum_above_ceiling_admitted :
    roundFloat64 (10 + 1 / 2 ^ 49) = 10 + 1 / 2 ^ 49
    ∧ getCurrentResources boundaryPass.cpuPercent boundaryPass.memInfo = .ok (80, 80)
    ∧ estimateResources boundaryPass.history boundaryPass.host jobA.Payload.Model
        jobA.Payload.Signal = (10 + 1 / 2 ^ 49, 5, 1 / 2)
    ∧ ¬ ((80 : ℚ) + (10 + 1 / 2 ^ 49) ≤ 90)
    ∧ roundFloat64 (80 + (10 + 1 / 2 ^ 49)) = 90
    ∧ workerProcessItem roundFloat64 boundaryPass [jobA, jobB]
        = some (.processed jobA, [jobB]) := by
  have hsum : roundFloat64 (80 + (10 + 1 / 2 ^ 49)) = 90 := by
    rw [roundFloat64_of_bounds (80 + (10 + 1 / 2 ^ 49)) 6 (90 * 2 ^ 46) (by norm_num)
      (by norm_num) (by norm_num) (by norm_num) (by norm_num [abs_lt])]
    norm_num
  refine ⟨?_, rfl, estimate_boundaryPass, by norm_num, hsum, ?_⟩
  · rw [roundFloat64_of_bounds (10 + 1 / 2 ^ 49) 3 (10 * 2 ^ 49 + 1) (by norm_num)
      (by norm_num) (by norm_num) (by norm_num) (by norm_num)]
    norm_num
  · apply workerProcessItem_admitted roundFloat64 boundaryPass jobA [jobB] 80 80
      (10 + 1 / 2 ^ 49) 5 (1 / 2) rfl estimate_boundaryPass
    rw [insufficientResources_eq_false]
    exact ⟨hsum.le, (roundFloat64_le_90_iff _).mpr (by norm_num)⟩

/-- C1, amended: for finite values, with current usage `(cpuCurrent, memCurrent)`
sampled and the estimate `(cpuRequired, memRequired, _)`, the worker runs
`processJob` on the job it received exactly when the `float64` sums
`cpuCurrent + cpuRequired` and `memCurrent + memRequired` (each rounded to the
nearest `float64`) are both at most 90, which is exactly when both exact sums are at
most `90 + 2^(-47)`; a rounded sum equal to the ceiling is admitted.  Otherwise the
job is deferred: after the sleep it is put back at the tail of the queue, or
discarded when the queue holds 100 jobs.  80 + 5 is admitted, 80 + 15 is deferred. -/
theorem C1_admission_float64 (env : PassInputs) (job : JobRequest) (rest : List JobRequest)
    (cpuCurrent memCurrent cpuRequired memRequired timeEstimate : ℚ)
    (hsample : getCurrentResources env.cpuPercent env.memInfo = .ok (cpuCurrent, memCurrent))
    (hestimate : estimateResources env.history env.host job.Payload.Model job.Payload.Signal
      = (cpuRequired, memRequired, timeEstimate)) :
    (workerProcessItem roundFloat64 env (job :: rest) = some (.processed job, rest)
        ↔ roundFloat64 (cpuCurrent + cpuRequired) ≤ 90
          ∧ roundFloat64 (memCurrent + memRequired) ≤ 90)
    ∧ ((roundFloat64 (cpuCurrent + cpuRequired) ≤ 90
          ∧ roundFloat64 (memCurrent + memRequired) ≤ 90)
        ↔ (cpuCurrent + cpuRequired ≤ 90 + 1 / 2 ^ 47
          ∧ memCurrent + memRequired ≤ 90 + 1 / 2 ^ 47))
    ∧ (¬ (roundFloat64 (cpuCurrent + cpuRequired) ≤ 90
          ∧ roundFloat64 (memCurrent + memRequired) ≤ 90) →
        workerProcessItem roundFloat64 env (job :: rest) =
          if rest.length < 100 then
            some (.requeued job (sleepDuration timeEstimate), rest ++ [job])
          else some (.discarded job (sleepDuration timeEstimate), rest))
    ∧ insufficientResources roundFloat64 80 80 5 5 = false
    ∧ insufficientResources roundFloat64 80 80 15 5 = true
    ∧ insufficientResources roundFloat64 80 80 10 10 = false := by
  have hiff := insufficientResources_eq_false roundFloat64 cpuCurrent memCurrent cpuRequired
    memRequired
  have hdefer : ¬ (roundFloat64 (cpuCurrent + cpuRequired) ≤ 90
        ∧ roundFloat64 (memCurrent + memRequired) ≤ 90) →
      workerProcessItem roundFloat64 env (job :: rest) =
        if rest.length < 100 then
          some (.requeued job (sleepDuration timeEstimate), rest ++ [job])
        else some (.discarded job (sleepDuration timeEstimate), rest) := by
    intro hnot
    apply workerProcessItem_deferred roundFloat64 env job rest cpuCurrent memCurrent
      cpuRequired memRequired timeEstimate hsample hestimate
    rw [← Bool.not_eq_false, hiff]
    exact hnot
  refine ⟨?_, ?_, hdefer, ?_, ?_, ?_⟩
  · constructor
    · intro hrun
      by_contra hnot
      rw [hdefer hnot] at hrun
      split_ifs at hrun <;> simp at hrun
    · intro hok
      exact workerProcessItem_admitted roundFloat64 env job rest cpuCurrent memCurrent
        cpuRequired memRequired timeEstimate hsample hestimate (hiff.mpr hok)
  · rw [roundFloat64_le_90_iff, roundFloat64_le_90_iff]
  · rw [insufficientResources_eq_false]
    simp only [roundFloat64_le_90_iff]
    norm_num
  · rw [← Bool.not_eq_false, insufficientResources_eq_false]
    simp only [roundFloat64_le_90_iff]
    norm_num
  · rw [insufficientResources_eq_false]
    simp only [roundFloat64_le_90_iff]
    norm_num

/-- Witness of C1 amended: at 80 % CPU and memory, the job with a 5 % estimate is
processed, and the job with a 15 % CPU estimate is put back behind `jobB` after a
sleep of `sleepDuration (1 / 2)`. -/
theorem C1_admission_float64_witness :
    workerProcessItem roundFloat64 lightPass [jobA, jobB] = some (.processed jobA, [jobB])
    ∧ workerProcessItem roundFloat64 heavyPass [jobA, jobB]
        = some (.requeued jobA (sleepDuration (1 / 2)), [jobB, jobA]) :=
  ⟨(C1_admission_float64 lightPass jobA [jobB] 80 80 5 5 (1 / 2) rfl estimate_lightPass).1.mpr
      ⟨(roundFloat64_le_90_iff _).mpr (by norm_num), (roundFloat64_le_90_iff _).mpr (by norm_num)⟩,
   ((C1_admission_float64 heavyPass jobA [jobB] 80 80 15 5 (1 / 2) rfl
      estimate_heavyPass).2.2.1
      (fun h => absurd ((roundFloat64_le_90_iff _).mp h.1) (by norm_num))).trans
      (if_pos (by decide))⟩

theorem handleClient_queue_cases (unmarshal : GoString → Option Server.Payload) (conn : Nat)
    (read : Except String GoString) (queue : List JobRequest) :
    ((handleClient unmarshal conn read queue).queue = queue
        ∧ (handleClient unmarshal conn read queue).event.dispatched = none)
    ∨ ∃ job, queue.length < 100
        ∧ (handleClient unmarshal conn read queue).queue = queue ++ [job]
        ∧ (handleClient unmarshal conn read queue).event.dispatched = some job := by
  have hsend : ∀ (jsonStr : GoString) (payload : Server.Payload),
      ((match trySend queue ⟨payload, conn⟩ with
          | (queue, true) => (⟨.next, .enqueued jsonStr ⟨payload, conn⟩, queue⟩ : HandlerPass)
          | (queue, false) => ⟨.next, .queueFull jsonStr ⟨payload, conn⟩, queue⟩).queue = queue
        ∧ (match trySend queue ⟨payload, conn⟩ with
          | (queue, true) => (⟨.next, .enqueued jsonStr ⟨payload, conn⟩, queue⟩ : HandlerPass)
          | (queue, false) => ⟨.next, .queueFull jsonStr ⟨payload, conn⟩, queue⟩).event.dispatched
            = none)
      ∨ ∃ job, queue.length < 100
        ∧ (match trySend queue ⟨payload, conn⟩ with
          | (queue, true) => (⟨.next, .enqueued jsonStr ⟨payload, conn⟩, queue⟩ : HandlerPass)
          | (queue, false) => ⟨.next, .queueFull jsonStr ⟨payload, conn⟩, queue⟩).queue
            = queue ++ [job]
        ∧ (match trySend queue ⟨payload, conn⟩ with
          | (queue, true) => (⟨.next, .enqueued jsonStr ⟨payload, conn⟩, queue⟩ : HandlerPass)
          | (queue, false) => ⟨.next, .queueFull jsonStr ⟨payload, conn⟩, queue⟩).event.dispatched
            = some job := by
    intro jsonStr payload
    by_cases hlt : queue.length < 100
    · rw [trySend_of_lt queue _ hlt]
      exact Or.inr ⟨_, hlt, rfl, rfl⟩
    · rw [trySend_of_ge queue _ (by omega)]
      exact Or.inl ⟨rfl, rfl⟩
  unfold handleClient
  cases read with
  | error e => exact Or.inl ⟨rfl, rfl⟩
  | ok data =>
    dsimp only
    split_ifs
    · exact Or.inl ⟨rfl, rfl⟩
    · exact Or.inl ⟨rfl, rfl⟩
    · exact Or.inl ⟨rfl, rfl⟩
    · exact Or.inl ⟨rfl, rfl⟩
    · split
      · exact Or.inl ⟨rfl, rfl⟩
      · exact hsend _ _
    · exact Or.inl ⟨rfl, rfl⟩

theorem workerProcessItem_queue_cases (rnd : ℚ → ℚ) (env : PassInputs) (job : JobRequest)
    (rest : List JobRequest) :
    ∃ event queue, workerProcessItem rnd env (job :: rest) = some (event, queue)
      ∧ (queue = rest ∨ (rest.length < 100 ∧ queue = rest ++ [job])) := by
  unfold workerProcessItem
  dsimp only
  split
  · exact ⟨_, _, rfl, Or.inl rfl⟩
  · split
    · by_cases hlt : rest.length < 100
      · rw [trySend_of_lt rest job hlt]
        exact ⟨_, _, rfl, Or.inr ⟨hlt, rfl⟩⟩
      · rw [trySend_of_ge rest job (by omega)]
        exact ⟨_, _, rfl, Or.inl rfl⟩
    · exact ⟨_, _, rfl, Or.inl rfl⟩

/-- C2: the non-blocking send on the queue of capacity 100 appends the job at the
tail when fewer than 100 jobs are buffered and leaves the queue unchanged (the job is
discarded) when 100 are; the send is a total function (the caller never waits), a
queue of at most 100 jobs stays so under the send, under a pass of `handleClient`
and under a pass of `workerProcessItem`, and both callers change the queue only
through that send. -/
theorem C2_bounded_enqueue (queue : List JobRequest) (job : JobRequest) :
    (queue.length < 100 → trySend queue job = (queue ++ [job], true))
    ∧ (queue.length = 100 → trySend queue job = (queue, false))
    ∧ (queue.length ≤ 100 → (trySend queue job).1.length ≤ 100)
    ∧ (∀ unmarshal conn read, queue.length ≤ 100 →
        (handleClient unmarshal conn read queue).queue.length ≤ 100)
    ∧ (∀ rnd env event after, queue.length ≤ 100 →
        workerProcessItem rnd env queue = some (event, after) → after.length ≤ 100)
    ∧ (∀ unmarshal conn read,
        (handleClient unmarshal conn read queue).queue = queue
        ∨ ∃ new, (handleClient unmarshal conn read queue).queue = (trySend queue new).1)
    ∧ (∀ rnd env rest event after,
        workerProcessItem rnd env (job :: rest) = some (event, after) →
        after = rest ∨ after = (trySend rest job).1) := by
  refine ⟨trySend_of_lt queue job, fun h => trySend_of_ge queue job (by omega),
    trySend_length_le queue job, ?_, ?_, ?_, ?_⟩
  · intro unmarshal conn read hle
    rcases handleClient_queue_cases unmarshal conn read queue with h | ⟨new, hlt, h, _⟩
    · rw [h.1]; exact hle
    · rw [h]; simp only [List.length_append, List.length_singleton]; omega
  · intro rnd env event after hle hstep
    cases queue with
    | nil => simp [workerProcessItem] at hstep
    | cons first rest =>
      obtain ⟨event', after', hrun, hcases⟩ := workerProcessItem_queue_cases rnd env first rest
      rw [hrun] at hstep
      have hafter : after' = after := by
        have := Option.some.inj hstep
        exact congrArg Prod.snd this
      subst hafter
      simp only [List.length_cons] at hle
      rcases hcases with h | ⟨_, h⟩
      · rw [h]; omega
      · rw [h]; simp only [List.length_append, List.length_singleton]; omega
  · intro unmarshal conn read
    rcases handleClient_queue_cases unmarshal conn read queue with h | ⟨new, hlt, h, _⟩
    · exact Or.inl h.1
    · exact Or.inr ⟨new, by rw [h, trySend_of_lt queue new hlt]⟩
  · intro rnd env rest event after hstep
    obtain ⟨event', after', hrun, hcases⟩ := workerProcessItem_queue_cases rnd env job rest
    rw [hrun] at hstep
    have hafter : after' = after := congrArg Prod.snd (Option.some.inj hstep)
    subst hafter
    rcases hcases with h | ⟨hlt, h⟩
    · exact Or.inl h
    · exact Or.inr (by rw [h, trySend_of_lt rest job hlt])

theorem workerProcessItem_sampleError (rnd : ℚ → ℚ) (env : PassInputs) (job : JobRequest)
    (rest : List JobRequest) (err : String)
    (hsample : getCurrentResources env.cpuPercent env.memInfo = .error err) :
    workerProcessItem rnd env (job :: rest) = some (.sampleError job, rest) := by
  simp only [workerProcessItem, hsample]

/-- C3: at the queue `[jobA, jobB]` with a failing `cpu.Percent`, the pass of the
worker ends with `jobA` received from the channel and not put back: the queue is
`[jobB]`, `jobA` is no longer in it, and the job examined by the next pass is
`jobB`. -/
theorem C3_sample_error_drops_job :
    workerProcessItem roundFloat64 failedSamplePass [jobA, jobB]
      = some (.sampleError jobA, [jobB])
    ∧ jobA ∉ [jobB]
    ∧ workerProcessItem roundFloat64 lightPass [jobB] = some (.processed jobB, []) := by
  refine ⟨workerProcessItem_sampleError roundFloat64 failedSamplePass jobA [jobB] _ rfl,
    by decide, ?_⟩
  have hm : entryMatches (Base jobB.Payload.Model) (Base jobB.Payload.Signal) lightEntry
      = false := by decide
  have hest : estimateResources lightPass.history lightPass.host jobB.Payload.Model
      jobB.Payload.Signal = (1 / 100, 1 / 100, 1 / 10) := by
    simp [estimateResources, lightPass, loadHistory, List.filter_cons, hm]
  have hins : insufficientResources roundFloat64 80 80 (1 / 100) (1 / 100) = false := by
    rw [insufficientResources_eq_false]
    simp only [roundFloat64_le_90_iff]
    norm_num
  exact workerProcessItem_admitted roundFloat64 lightPass jobB [] 80 80 (1 / 100) (1 / 100)
    (1 / 10) rfl hest hins

theorem truncToInt_of_lt_one (x : ℚ) (h0 : 0 ≤ x) (h1 : x < 1) : truncToInt x = 0 := by
  simp only [truncToInt, h0, if_true]
  exact Int.floor_eq_zero_iff.mpr ⟨h0, h1⟩

theorem sleepDuration_of_lt_one (t : ℚ) (h0 : 0 ≤ t) (h1 : t < 1) : sleepDuration t = 0 := by
  have hmin : min t 1 = t := min_eq_left h1.le
  simp [sleepDuration, hmin, truncToInt_of_lt_one t h0 h1, wrapInt64]

theorem sleepDuration_of_ge_one (t : ℚ) (h1 : 1 ≤ t) : sleepDuration t = 1000000000 := by
  have hmin : min t 1 = 1 := min_eq_right h1
  simp [sleepDuration, hmin, truncToInt, wrapInt64, Second]

/-- C4: for the default estimate `t = 0.1` and for `t = 0.5` the duration computed at
the sleep call is 0 nanoseconds, not `min(t, 1.0) * 10^9` (which is `10^8` and
`5 * 10^8`): the conversion to `time.Duration` discards the fraction before the
multiplication by `time.Second`.  Only for `t ≥ 1` is the duration `10^9`. -/
theorem C4_sleep_truncates :
    sleepDuration (1 / 10) = 0
    ∧ min (1 / 10 : ℚ) 1 * 1000000000 = 100000000
    ∧ sleepDuration (1 / 2) = 0
    ∧ min (1 / 2 : ℚ) 1 * 1000000000 = 500000000
    ∧ sleepDuration 1 = 1000000000
    ∧ sleepDuration 7 = 1000000000 := by
  refine ⟨sleepDuration_of_lt_one _ (by norm_num) (by norm_num), ?_,
    sleepDuration_of_lt_one _ (by norm_num) (by norm_num), ?_,
    sleepDuration_of_ge_one _ (by norm_num), sleepDuration_of_ge_one _ (by norm_num)⟩
  · rw [min_eq_left (by norm_num)]; norm_num
  · rw [min_eq_left (by norm_num)]; norm_num


/-! ## Solvers: the loops run to the iteration cap -/

theorem Dot_self_nonneg {k : Nat} (v : Fin k → ℚ) : 0 ≤ Dot v v := by
  unfold Dot
  exact Finset.sum_nonneg (fun i _ => mul_self_nonneg (v i))

theorem cgnrPass_numberIterations {m n : Nat} (H : Fin m → Fin n → ℚ) (i : Int)
    (s : CGNRState m n) : (cgnrPass H i s).numberIterations = i + 1 := rfl

theorem cgnePass_finalIterations {m n : Nat} (H : Fin m → Fin n → ℚ) (i : Int)
    (s : CGNEState m n) (Hp : Fin m → ℚ) (alphaNum alphaDen : ℚ) :
    (cgnePass H i s Hp alphaNum alphaDen).finalIterations = i + 1 := rfl

theorem cgnrLoop_numberIterations {m n : Nat} (norm : (Fin m → ℚ) → ℚ)
    (H : Fin m → Fin n → ℚ) (tol initialResidualNorm : ℚ) :
    ∀ (remaining : Nat) (i : Int) (s : CGNRState m n),
      i + (remaining + 1 : Nat) < MIN_ITERATIONS →
      (cgnrLoop norm H tol initialResidualNorm (remaining + 1) i s).numberIterations
        = i + (remaining + 1 : Nat) := by
  intro remaining
  induction remaining with
  | zero =>
    intro i s hlt
    have hno : ¬ (i + 1 ≥ MIN_ITERATIONS) := by
      simp only [Nat.zero_add, Nat.cast_one] at hlt
      omega
    simp only [cgnrLoop, cgnrPass_numberIterations]
    rw [if_neg (fun h => hno h.1)]
    simp [cgnrPass_numberIterations]
  | succ k ih =>
    intro i s hlt
    have hno : ¬ (i + 1 ≥ MIN_ITERATIONS) := by
      push_cast at hlt
      omega
    rw [cgnrLoop]
    simp only [cgnrPass_numberIterations]
    rw [if_neg (fun h => hno h.1)]
    rw [ih (i + 1) _ (by push_cast at hlt ⊢; omega)]
    push_cast
    ring

theorem cgneLoop_finalIterations {m n : Nat} (norm : (Fin m → ℚ) → ℚ)
    (H : Fin m → Fin n → ℚ) (tol initialResidualNorm : ℚ) :
    ∀ (remaining : Nat) (i : Int) (s : CGNEState m n),
      i + (remaining + 1 : Nat) < MIN_ITERATIONS →
      (cgneLoop norm H tol initialResidualNorm (remaining + 1) i s).finalIterations
        = i + (remaining + 1 : Nat) := by
  intro remaining
  induction remaining with
  | zero =>
    intro i s hlt
    have hno : ¬ (i + 1 ≥ MIN_ITERATIONS) := by
      simp only [Nat.zero_add, Nat.cast_one] at hlt
      omega
    have hden : ¬ (Dot (MulVec H s.p) (MulVec H s.p) + MIN_DIV < MIN_DIV) := by
      have := Dot_self_nonneg (MulVec H s.p)
      linarith
    simp only [cgneLoop, cgnePass_finalIterations]
    rw [if_neg hden, if_neg (fun h => hno h.1)]
    simp [cgnePass_finalIterations]
  | succ k ih =>
    intro i s hlt
    have hno : ¬ (i + 1 ≥ MIN_ITERATIONS) := by
      push_cast at hlt
      omega
    have hden : ¬ (Dot (MulVec H s.p) (MulVec H s.p) + MIN_DIV < MIN_DIV) := by
      have := Dot_self_nonneg (MulVec H s.p)
      linarith
    rw [cgneLoop]
    simp only [cgnePass_finalIterations]
    rw [if_neg hden, if_neg (fun h => hno h.1)]
    rw [ih (i + 1) _ (by push_cast at hlt ⊢; omega)]
    push_cast
    ring

/-- C5: for every `m`-by-`n` matrix `H` (`m, n ≥ 1`), every signal `g` of length `m`,
every tolerance, every norm function and every `maxIterations` with
`1 ≤ maxIterations < MIN_ITERATIONS = 10`, `reconstructCGNR` and `reconstructCGNE`
both return, and the iteration count each returns is exactly `maxIterations`, hence
within `[1, maxIterations]`; the configured cap `MAX_ITERATIONS = 5` is in that
range.  Neither the convergence test nor the `alphaDen < MIN_DIV` test of CGNE leaves
the loop early. -/
theorem C5_solvers_run_to_cap {m n : Nat} (norm : (Fin m → ℚ) → ℚ) (H : Fin m → Fin n → ℚ)
    (g : List ℚ) (maxIterations : Int) (tol : ℚ)
    (hm : 0 < m) (hn : 0 < n) (hg : g.length = m)
    (hlo : 1 ≤ maxIterations) (hhi : maxIterations < MIN_ITERATIONS) :
    (∃ res, reconstructCGNR norm H g maxIterations tol = some res
        ∧ res.iterations = maxIterations ∧ 1 ≤ res.iterations ∧ res.iterations ≤ maxIterations)
    ∧ (∃ res, reconstructCGNE norm H g maxIterations tol = some res
        ∧ res.iterations = maxIterations ∧ 1 ≤ res.iterations ∧ res.iterations ≤ maxIterations)
    ∧ 1 ≤ MAX_ITERATIONS ∧ MAX_ITERATIONS < MIN_ITERATIONS ∧ MAX_ITERATIONS = 5 := by
  obtain ⟨k, hk⟩ : ∃ k : Nat, maxIterations.toNat = k + 1 :=
    ⟨maxIterations.toNat - 1, by omega⟩
  have hcast : ((k + 1 : Nat) : Int) = maxIterations := by
    rw [← hk]; exact Int.toNat_of_nonneg (by omega)
  have hdims : 0 < m ∧ 0 < n ∧ g.length = m := ⟨hm, hn, hg⟩
  refine ⟨?_, ?_, by decide, by decide, rfl⟩
  · refine ⟨_, by rw [reconstructCGNR, dif_pos hdims], ?_⟩
    have hcount := cgnrLoop_numberIterations norm H tol
      (norm (cgnrInit H (fun i => g.get (i.cast hdims.2.2.symm))).r) k 0
      (cgnrInit H (fun i => g.get (i.cast hdims.2.2.symm))) (by rw [hcast]; omega)
    rw [hcast, zero_add] at hcount
    simp only [hk]
    rw [hcount]
    exact ⟨rfl, hlo, le_refl _⟩
  · refine ⟨_, by rw [reconstructCGNE, dif_pos hdims], ?_⟩
    have hcount := cgneLoop_finalIterations norm H tol
      (norm (cgneInit H (fun i => g.get (i.cast hdims.2.2.symm))).r) k 0
      (cgneInit H (fun i => g.get (i.cast hdims.2.2.symm))) (by rw [hcast]; omega)
    rw [hcast, zero_add] at hcount
    simp only [hk]
    rw [hcount]
    exact ⟨rfl, hlo, le_refl _⟩

/-- Witness of C5: on the 2-by-2 identity with signal `[1, 2]`, the configured cap
and the configured tolerance, both solvers return with iteration count 5. -/
theorem C5_solvers_run_to_cap_witness :
    (∃ res, reconstructCGNR sumAbs identity2 [1, 2] MAX_ITERATIONS TOL_REQUISITO = some res
        ∧ res.iterations = 5)
    ∧ (∃ res, reconstructCGNE sumAbs identity2 [1, 2] MAX_ITERATIONS TOL_REQUISITO = some res
        ∧ res.iterations = 5) :=
  have h := C5_solvers_run_to_cap sumAbs identity2 [1, 2] MAX_ITERATIONS TOL_REQUISITO
    (by decide) (by decide) rfl (by decide) (by decide)
  ⟨h.1.imp fun _ hr => ⟨hr.1, hr.2.1⟩, h.2.1.imp fun _ hr => ⟨hr.1, hr.2.1⟩⟩


/-! ## Frame scanner of `handleClient` -/

theorem Index_of_not_mem (sep : Char) : ∀ s : GoString, sep ∉ s → Index s sep = -1
  | [], _ => rfl
  | c :: rest, h => by
    have hc : c ≠ sep := fun e => h (by simp [e])
    have hrest : sep ∉ rest := fun e => h (List.mem_cons_of_mem _ e)
    simp [Index, hc, Index_of_not_mem sep rest hrest]

theorem Index_of_mem (sep : Char) :
    ∀ s : GoString, sep ∈ s → ∃ k : Nat, Index s sep = k ∧ s.drop (k + 1) = afterFirst sep s
  | [], h => by simp at h
  | c :: rest, h => by
    by_cases hc : c = sep
    · exact ⟨0, by simp [Index, hc], by simp [afterFirst, hc]⟩
    · have hrest : sep ∈ rest := by
        rcases List.mem_cons.mp h with e | e
        · exact absurd e.symm hc
        · exact e
      obtain ⟨k, hk, hdrop⟩ := Index_of_mem sep rest hrest
      refine ⟨k + 1, ?_, ?_⟩
      · have hne : (k : Int) ≠ -1 := by omega
        simp [Index, hc, hk, hne]
      · simp [afterFirst, hc, hdrop]

theorem afterFirst_of_not_mem (sep : Char) : ∀ s : GoString, sep ∉ s → afterFirst sep s = []
  | [], _ => rfl
  | c :: rest, h => by
    have hc : c ≠ sep := fun e => h (by simp [e])
    have hrest : sep ∉ rest := fun e => h (List.mem_cons_of_mem _ e)
    simp [afterFirst, hc, afterFirst_of_not_mem sep rest hrest]

theorem afterFirst_append (sep : Char) (body : GoString) :
    ∀ field : GoString, sep ∉ field → afterFirst sep (field ++ sep :: body) = body
  | [], _ => by simp [afterFirst]
  | c :: rest, h => by
    have hc : c ≠ sep := fun e => h (by simp [e])
    have hrest : sep ∉ rest := fun e => h (List.mem_cons_of_mem _ e)
    simp [afterFirst, hc, afterFirst_append sep body rest hrest]

theorem count_afterFirst (sep : Char) :
    ∀ s : GoString, (afterFirst sep s).count sep = s.count sep - 1
  | [] => rfl
  | c :: rest => by
    by_cases hc : c = sep
    · simp [afterFirst, hc]
    · have hne : (c == sep) = false := by simp [hc]
      rw [afterFirst, if_neg hc, count_afterFirst sep rest, List.count_cons, hne]
      simp

theorem sliceFrom_Index (sep : Char) (s : GoString) (h : sep ∈ s) :
    sliceFrom s (Index s sep + 1) = afterFirst sep s := by
  obtain ⟨k, hk, hdrop⟩ := Index_of_mem sep s h
  rw [sliceFrom, hk]
  have : ((k : Int) + 1).toNat = k + 1 := by omega
  rw [this, hdrop]

theorem sliceFrom_second (s : GoString) (h1 : '|' ∈ s) (h2 : '|' ∈ afterFirst '|' s) :
    sliceFrom s (Index s '|' + 1 + Index (sliceFrom s (Index s '|' + 1)) '|' + 1)
      = afterSecondPipe s := by
  rw [sliceFrom_Index '|' s h1]
  obtain ⟨k, hk, hdrop⟩ := Index_of_mem '|' s h1
  obtain ⟨j, hj, hdrop2⟩ := Index_of_mem '|' (afterFirst '|' s) h2
  rw [hk, hj, sliceFrom, afterSecondPipe, ← hdrop2, ← hdrop, List.drop_drop]
  congr 1

/-- The pass of the read loop on a chunk that starts with the tag `2_`, with the
positions of the pipes resolved. -/
theorem handleClient_tagged (unmarshal : GoString → Option Server.Payload) (conn : Nat)
    (data : GoString) (queue : List JobRequest) (htag : HasPrefix data ['2', '_'] = true) :
    handleClient unmarshal conn (.ok data) queue =
      if '|' ∉ data then ⟨.next, .noFirstPipe, queue⟩
      else if '|' ∉ afterFirst '|' data then ⟨.next, .noSecondPipe, queue⟩
      else
        match unmarshal (TrimSpace (afterSecondPipe data)) with
        | none => ⟨.next, .decodeError (TrimSpace (afterSecondPipe data)), queue⟩
        | some payload =>
          match trySend queue ⟨payload, conn⟩ with
          | (after, true) =>
            ⟨.next, .enqueued (TrimSpace (afterSecondPipe data)) ⟨payload, conn⟩, after⟩
          | (after, false) =>
            ⟨.next, .queueFull (TrimSpace (afterSecondPipe data)) ⟨payload, conn⟩, after⟩ := by
  obtain ⟨rest, rfl⟩ : ∃ rest, data = '2' :: '_' :: rest := by
    match data, htag with
    | [], h => simp [HasPrefix, List.isPrefixOf] at h
    | [_], h => simp [HasPrefix, List.isPrefixOf] at h
    | c1 :: c2 :: rest, h =>
      simp [HasPrefix, List.isPrefixOf] at h
      exact ⟨rest, by rw [h.1, h.2]⟩
  have hlen : ¬ (('2' :: '_' :: rest : GoString).length = 0) := by simp
  have hexit : HasPrefix ('2' :: '_' :: rest) ['E', 'X', 'I', 'T'] = false := by
    simp [HasPrefix, List.isPrefixOf]
  unfold handleClient
  simp only [hlen, hexit, htag, if_false, if_true, Bool.false_eq_true]
  by_cases h1 : '|' ∈ ('2' :: '_' :: rest : GoString)
  · have hidx : Index ('2' :: '_' :: rest) '|' ≠ -1 := by
      obtain ⟨k, hk, _⟩ := Index_of_mem '|' _ h1
      rw [hk]; omega
    rw [if_neg hidx, if_neg (not_not.mpr h1)]
    by_cases h2 : '|' ∈ afterFirst '|' ('2' :: '_' :: rest : GoString)
    · have hidx2 : Index (sliceFrom ('2' :: '_' :: rest) (Index ('2' :: '_' :: rest) '|' + 1)) '|'
          ≠ -1 := by
        rw [sliceFrom_Index '|' _ h1]
        obtain ⟨k, hk, _⟩ := Index_of_mem '|' _ h2
        rw [hk]; omega
      rw [if_neg hidx2, if_neg (not_not.mpr h2), sliceFrom_second _ h1 h2]
    · have hidx2 : Index (sliceFrom ('2' :: '_' :: rest) (Index ('2' :: '_' :: rest) '|' + 1)) '|'
          = -1 := by
        rw [sliceFrom_Index '|' _ h1]
        exact Index_of_not_mem '|' _ h2
      rw [if_pos hidx2, if_pos h2]
  · rw [if_pos (Index_of_not_mem '|' _ h1), if_pos h1]


theorem mem_of_two_le_count (sep : Char) (s : GoString) (h : 2 ≤ s.count sep) :
    sep ∈ s ∧ sep ∈ afterFirst sep s := by
  constructor
  · exact List.count_pos_iff.mp (by omega)
  · apply List.count_pos_iff.mp
    rw [count_afterFirst]
    omega

theorem afterSecondPipe_append (a b c : GoString) (ha : '|' ∉ a) (hb : '|' ∉ b) :
    afterSecondPipe (a ++ '|' :: (b ++ '|' :: c)) = c := by
  rw [afterSecondPipe, afterFirst_append '|' _ a ha, afterFirst_append '|' _ b hb]

theorem count_append_two_pipes (a b c : GoString) :
    2 ≤ (a ++ '|' :: (b ++ '|' :: c)).count '|' := by
  simp only [List.count_append, List.count_cons_self]
  omega

theorem handleClient_decoderInput (unmarshal : GoString → Option Server.Payload) (conn : Nat)
    (data : GoString) (queue : List JobRequest) (htag : HasPrefix data ['2', '_'] = true)
    (hpipes : 2 ≤ data.count '|') :
    (handleClient unmarshal conn (.ok data) queue).event.decoderInput
      = some (TrimSpace (afterSecondPipe data)) := by
  obtain ⟨h1, h2⟩ := mem_of_two_le_count '|' data hpipes
  rw [handleClient_tagged unmarshal conn data queue htag, if_neg (not_not.mpr h1),
    if_neg (not_not.mpr h2)]
  cases unmarshal (TrimSpace (afterSecondPipe data)) with
  | none => rfl
  | some payload =>
    by_cases hlt : queue.length < 100
    · simp only [trySend_of_lt queue _ hlt]; rfl
    · simp only [trySend_of_ge queue _ (by omega)]; rfl

/-- The model of `strings.TrimSpace` removes exactly a run of leading and a run of
trailing white space: what is left neither starts nor ends with white space. -/
theorem TrimSpace_spec (s : GoString) :
    ∃ leading trailing : GoString, s = leading ++ TrimSpace s ++ trailing
      ∧ (∀ c ∈ leading, isSpace c = true) ∧ (∀ c ∈ trailing, isSpace c = true)
      ∧ (∀ c, (TrimSpace s).head? = some c → isSpace c = false)
      ∧ (∀ c, (TrimSpace s).getLast? = some c → isSpace c = false) := by
  have hsplit : s.dropWhile isSpace
      = TrimSpace s ++ ((s.dropWhile isSpace).reverse.takeWhile isSpace).reverse := by
    have h := List.takeWhile_append_dropWhile isSpace (s.dropWhile isSpace).reverse
    have h' := congrArg List.reverse h
    rw [List.reverse_append, List.reverse_reverse] at h'
    exact h'.symm
  refine ⟨s.takeWhile isSpace, ((s.dropWhile isSpace).reverse.takeWhile isSpace).reverse,
    ?_, ?_, ?_, ?_, ?_⟩
  · rw [List.append_assoc, ← hsplit, List.takeWhile_append_dropWhile]
  · intro c hc
    exact List.mem_takeWhile_imp hc
  · intro c hc
    exact List.mem_takeWhile_imp (List.mem_reverse.mp hc)
  · intro c hc
    have hne : TrimSpace s ≠ [] := by
      intro h; rw [h] at hc; simp at hc
    have hhead : (s.dropWhile isSpace).head? = some c := by
      rw [hsplit, List.head?_append_of_ne_nil _ hne]; exact hc
    have := List.head?_dropWhile_not isSpace s
    rw [hhead] at this
    simpa using this
  · intro c hc
    have hhead : ((s.dropWhile isSpace).reverse.dropWhile isSpace).head? = some c := by
      rw [TrimSpace, List.getLast?_reverse] at hc; exact hc
    have := List.head?_dropWhile_not isSpace (s.dropWhile isSpace).reverse
    rw [hhead] at this
    simpa using this

/-- C6: for a chunk that starts with `2_` and holds at least two `|`, the text handed
to the JSON decoder is the text after the chunk's second `|`, trimmed by
`strings.TrimSpace`.  Whenever the chunk reads `a|b|c` with no `|` in `a` and `b`,
that text is `TrimSpace c`, whatever further `|` the body `c` holds; for a frame
`2_|field|body` with no `|` in `field` it is `TrimSpace body`.  The text handed over
is the text after the second `|` less a run of leading and a run of trailing white
space, and neither starts nor ends with white space. -/
theorem C6_frame_body (unmarshal : GoString → Option Server.Payload) (conn : Nat)
    (data : GoString) (queue : List JobRequest) (htag : HasPrefix data ['2', '_'] = true)
    (hpipes : 2 ≤ data.count '|') :
    (handleClient unmarshal conn (.ok data) queue).event.decoderInput
        = some (TrimSpace (afterSecondPipe data))
    ∧ (∀ a b c : GoString, '|' ∉ a → '|' ∉ b → data = a ++ '|' :: (b ++ '|' :: c) →
        (handleClient unmarshal conn (.ok data) queue).event.decoderInput
          = some (TrimSpace c))
    ∧ (∀ field body : GoString, '|' ∉ field →
        data = ['2', '_', '|'] ++ field ++ '|' :: body →
        (handleClient unmarshal conn (.ok data) queue).event.decoderInput
          = some (TrimSpace body))
    ∧ (∃ jsonStr leading trailing : GoString,
        (handleClient unmarshal conn (.ok data) queue).event.decoderInput = some jsonStr
        ∧ afterSecondPipe data = leading ++ jsonStr ++ trailing
        ∧ (∀ c ∈ leading, isSpace c = true) ∧ (∀ c ∈ trailing, isSpace c = true)
        ∧ (∀ c, jsonStr.head? = some c → isSpace c = false)
        ∧ (∀ c, jsonStr.getLast? = some c → isSpace c = false)) := by
  have hmain := handleClient_decoderInput unmarshal conn data queue htag hpipes
  refine ⟨hmain, ?_, ?_, ?_⟩
  · intro a b c ha hb hdata
    rw [hmain, hdata, afterSecondPipe_append a b c ha hb]
  · intro field body hfield hdata
    rw [hmain, hdata]
    have h := afterSecondPipe_append ['2', '_'] field body (by decide) hfield
    simp only [List.cons_append, List.nil_append, List.append_assoc] at h ⊢
    rw [h]
  · obtain ⟨leading, trailing, hsplit, hlead, htrail, hhead, hlast⟩ :=
      TrimSpace_spec (afterSecondPipe data)
    exact ⟨_, leading, trailing, hmain, hsplit, hlead, htrail, hhead, hlast⟩

/-- Witness of C6: the frame `2_|job|<recordA>` followed by a newline hands exactly
`recordA` to the decoder. -/
theorem C6_frame_body_witness :
    (handleClient sampleUnmarshal 7 (.ok frameA) []).event.decoderInput = some recordA :=
  ((C6_frame_body sampleUnmarshal 7 frameA [] (by decide) (by decide)).2.2.1
    "job".toList (recordA ++ ['\n']) (by decide) (by decide)).trans (by decide)

/-- C7, as stated, fails: each of the two sample frames alone dispatches its job,
but the chunk made of both frames dispatches none (the text after the chunk's second
`|`, which holds the second frame, goes to the decoder as one body and is rejected),
and no decoder whatsoever makes the pass dispatch two jobs. -/
theorem C7_two_frames_not_split :
    (handleClient sampleUnmarshal 7 (.ok frameA) []).queue = [jobA]
    ∧ (handleClient sampleUnmarshal 7 (.ok frameB) []).queue = [jobB]
    ∧ (handleClient sampleUnmarshal 7 (.ok (frameA ++ frameB)) []).queue = []
    ∧ (handleClient sampleUnmarshal 7 (.ok (frameA ++ frameB)) []).event
        = .decodeError (recordA ++ ['\n'] ++ "2_|job|".toList ++ recordB)
    ∧ ¬ ∃ unmarshal : GoString → Option Server.Payload,
        (handleClient unmarshal 7 (.ok (frameA ++ frameB)) []).queue.length = 2 := by
  refine ⟨by decide, by decide, by decide, by decide, ?_⟩
  rintro ⟨unmarshal, hlen⟩
  rcases handleClient_queue_cases unmarshal 7 (.ok (frameA ++ frameB)) [] with h | ⟨job, _, h, _⟩
  · rw [h.1] at hlen; simp at hlen
  · rw [h] at hlen; simp at hlen

/-- C7, amended: a chunk `2_|field|body` followed by further text `later` (for
instance further frames) is handled as one frame.  The text handed to the decoder is
`TrimSpace (body ++ later)`; the pass dispatches at most one job, at the tail of the
queue; and when the decoder rejects that text no job is dispatched and the queue is
unchanged. -/
theorem C7_one_job_per_read (unmarshal : GoString → Option Server.Payload) (conn : Nat)
    (queue : List JobRequest) (field body later : GoString) (hfield : '|' ∉ field) :
    (handleClient unmarshal conn (.ok (['2', '_', '|'] ++ field ++ '|' :: (body ++ later)))
        queue).event.decoderInput = some (TrimSpace (body ++ later))
    ∧ ((handleClient unmarshal conn (.ok (['2', '_', '|'] ++ field ++ '|' :: (body ++ later)))
          queue).queue = queue
        ∨ ∃ job, (handleClient unmarshal conn
            (.ok (['2', '_', '|'] ++ field ++ '|' :: (body ++ later))) queue).queue
              = queue ++ [job])
    ∧ (unmarshal (TrimSpace (body ++ later)) = none →
        (handleClient unmarshal conn (.ok (['2', '_', '|'] ++ field ++ '|' :: (body ++ later)))
            queue).queue = queue
        ∧ (handleClient unmarshal conn (.ok (['2', '_', '|'] ++ field ++ '|' :: (body ++ later)))
            queue).event.dispatched = none) := by
  have htag : HasPrefix (['2', '_', '|'] ++ field ++ '|' :: (body ++ later)) ['2', '_'] = true := by
    simp [HasPrefix, List.isPrefixOf]
  have hshape : (['2', '_', '|'] ++ field ++ '|' :: (body ++ later) : GoString)
      = ['2', '_'] ++ '|' :: (field ++ '|' :: (body ++ later)) := by simp
  have hafter : afterSecondPipe (['2', '_', '|'] ++ field ++ '|' :: (body ++ later))
      = body ++ later := by
    rw [hshape]; exact afterSecondPipe_append ['2', '_'] field _ (by decide) hfield
  have hpipes : 2 ≤ (['2', '_', '|'] ++ field ++ '|' :: (body ++ later) : GoString).count '|' := by
    rw [hshape]; exact count_append_two_pipes _ _ _
  obtain ⟨h1, h2⟩ := mem_of_two_le_count '|' _ hpipes
  refine ⟨?_, ?_, ?_⟩
  · rw [handleClient_decoderInput unmarshal conn _ queue htag hpipes, hafter]
  · rcases handleClient_queue_cases unmarshal conn
      (.ok (['2', '_', '|'] ++ field ++ '|' :: (body ++ later))) queue with h | ⟨job, _, h, _⟩
    · exact Or.inl h.1
    · exact Or.inr ⟨job, h⟩
  · intro hrej
    rw [handleClient_tagged unmarshal conn _ queue htag, if_neg (not_not.mpr h1),
      if_neg (not_not.mpr h2), hafter, hrej]
    exact ⟨rfl, rfl⟩

/-- Witness of C7 amended: the chunk `frameA ++ frameB` (field `job`, body `recordA`
and a newline, later text `frameB`) leaves the empty queue empty. -/
theorem C7_one_job_per_read_witness :
    (handleClient sampleUnmarshal 7
        (.ok (['2', '_', '|'] ++ "job".toList ++ '|' :: ((recordA ++ ['\n']) ++ frameB)))
        []).queue = []
    ∧ (handleClient sampleUnmarshal 7
        (.ok (['2', '_', '|'] ++ "job".toList ++ '|' :: ((recordA ++ ['\n']) ++ frameB)))
        []).event.dispatched = none :=
  (C7_one_job_per_read sampleUnmarshal 7 [] "job".toList (recordA ++ ['\n']) frameB
    (by decide)).2.2 (by decide)

/-- C8: for a chunk that starts with `2_` and either holds fewer than two `|` or
holds two and the trimmed text after the second `|` is rejected by the decoder, the
pass enqueues no job, leaves the queue unchanged, and the read loop goes on with its
next pass (the connection is not closed). -/
theorem C8_malformed_frame_dropped (unmarshal : GoString → Option Server.Payload) (conn : Nat)
    (data : GoString) (queue : List JobRequest) (htag : HasPrefix data ['2', '_'] = true)
    (hbad : data.count '|' < 2 ∨ unmarshal (TrimSpace (afterSecondPipe data)) = none) :
    (handleClient unmarshal conn (.ok data) queue).control = .next
    ∧ (handleClient unmarshal conn (.ok data) queue).queue = queue
    ∧ (handleClient unmarshal conn (.ok data) queue).event.dispatched = none := by
  rw [handleClient_tagged unmarshal conn data queue htag]
  by_cases h1 : '|' ∈ data
  · rw [if_neg (not_not.mpr h1)]
    by_cases h2 : '|' ∈ afterFirst '|' data
    · rw [if_neg (not_not.mpr h2)]
      have hrej : unmarshal (TrimSpace (afterSecondPipe data)) = none := by
        rcases hbad with hcount | hrej
        · have hpos := List.count_pos_iff.mpr h2
          rw [count_afterFirst] at hpos
          omega
        · exact hrej
      rw [hrej]
      exact ⟨rfl, rfl, rfl⟩
    · rw [if_pos h2]
      exact ⟨rfl, rfl, rfl⟩
  · rw [if_pos h1]
    exact ⟨rfl, rfl, rfl⟩

/-- Witness of C8: a tagged chunk with one `|`, and the two-frame chunk whose body
the sample decoder rejects, both leave the queue `[jobA]` unchanged and keep the
loop running. -/
theorem C8_malformed_frame_dropped_witness :
    ((handleClient sampleUnmarshal 7 (.ok "2_|job".toList) [jobA]).control = .next
      ∧ (handleClient sampleUnmarshal 7 (.ok "2_|job".toList) [jobA]).queue = [jobA]
      ∧ (handleClient sampleUnmarshal 7 (.ok "2_|job".toList) [jobA]).event.dispatched = none)
    ∧ ((handleClient sampleUnmarshal 7 (.ok (frameA ++ frameB)) [jobA]).control = .next
      ∧ (handleClient sampleUnmarshal 7 (.ok (frameA ++ frameB)) [jobA]).queue = [jobA]
      ∧ (handleClient sampleUnmarshal 7 (.ok (frameA ++ frameB)) [jobA]).event.dispatched
          = none) :=
  ⟨C8_malformed_frame_dropped sampleUnmarshal 7 "2_|job".toList [jobA] (by decide)
      (Or.inl (by decide)),
   C8_malformed_frame_dropped sampleUnmarshal 7 (frameA ++ frameB) [jobA] (by decide)
      (Or.inr (by decide))⟩


/-! ## Estimator: matching rule and defaults -/

theorem entryMatches_iff (model signal : GoString) (entry : HistoryEntry) :
    entryMatches (Base model) (Base signal) entry = true
      ↔ Base entry.Model = Base model ∧ Base signal <+: Base entry.Signal := by
  simp [entryMatches, HasPrefix, List.isPrefixOf_iff_prefix]

theorem estimateResources_of_no_match (host : HostInfo) (model signal : GoString)
    (history : List HistoryEntry)
    (hnone : ∀ e ∈ history, ¬ (Base e.Model = Base model ∧ Base signal <+: Base e.Signal)) :
    estimateResources (.decoded history) host model signal = (1 / 100, 1 / 100, 1 / 10) := by
  have hfilter : history.filter (entryMatches (Base model) (Base signal)) = [] := by
    rw [List.filter_eq_nil_iff]
    intro e he hmatch
    exact hnone e he ((entryMatches_iff model signal e).mp hmatch)
  simp only [estimateResources, loadHistory, hfilter, List.getLast?_nil]
  split_ifs <;> rfl

/-- C9, as stated, fails: the only entry of the history has the request's model
base-name and a signal base-name (`signal-1`) that is a prefix of the request's
(`signal-10`), yet the estimator does not use it and returns the default 0.1 s, not
the entry's 3 s; and an entry whose signal base-name (`signal-1.csv`) is not a prefix
of the request's (`signal-1`) is used, its time 0.5 s being returned. -/
theorem C9_prefix_direction :
    specEntryMatches "models/H-1.csv".toList "client/signals/signal-10".toList shortEntry = true
    ∧ (estimateResources (.decoded [shortEntry]) sampleHost "models/H-1.csv".toList
        "client/signals/signal-10".toList).2.2 = 1 / 10
    ∧ shortEntry.Time = 3
    ∧ specEntryMatches jobA.Payload.Model jobA.Payload.Signal lightEntry = false
    ∧ (estimateResources (.decoded [lightEntry]) sampleHost jobA.Payload.Model
        jobA.Payload.Signal).2.2 = lightEntry.Time := by
  refine ⟨by decide, ?_, rfl, by decide, ?_⟩
  · have hm : entryMatches (Base "models/H-1.csv".toList)
        (Base "client/signals/signal-10".toList) shortEntry = false := by decide
    simp only [estimateResources, loadHistory, List.filter_cons, hm]
    norm_num
  · have h := estimate_lightPass
    simp only [lightPass] at h
    rw [h]
    norm_num [lightEntry]

/-- C9, amended: the estimator bases its result on the last entry, in stored order,
among the entries whose model base-name equals the request's model base-name and
whose signal base-name has the request's signal base-name as a prefix; the returned
seconds value is that entry's time (and the two percentages are computed from that
entry). -/
theorem C9_last_match_wins (host : HostInfo) (model signal : GoString)
    (before after : List HistoryEntry) (reg : HistoryEntry)
    (hmodel : Base reg.Model = Base model) (hsignal : Base signal <+: Base reg.Signal)
    (hlast : ∀ e ∈ after, ¬ (Base e.Model = Base model ∧ Base signal <+: Base e.Signal)) :
    estimateResources (.decoded (before ++ reg :: after)) host model signal
      = (reg.CPUUsed / (host.cpuCount : ℚ),
          ((reg.MemUsedBytes : ℚ) / (host.memTotal : ℚ)) * 100, reg.Time)
    ∧ (estimateResources (.decoded (before ++ reg :: after)) host model signal).2.2
      = reg.Time := by
  have hreg : entryMatches (Base model) (Base signal) reg = true :=
    (entryMatches_iff model signal reg).mpr ⟨hmodel, hsignal⟩
  have hafter : after.filter (entryMatches (Base model) (Base signal)) = [] := by
    rw [List.filter_eq_nil_iff]
    intro e he hmatch
    exact hlast e he ((entryMatches_iff model signal e).mp hmatch)
  have hfilter : (before ++ reg :: after).filter (entryMatches (Base model) (Base signal))
      = before.filter (entryMatches (Base model) (Base signal)) ++ [reg] := by
    rw [List.filter_append, List.filter_cons, if_pos hreg, hafter]
  have hlen : ¬ ((before ++ reg :: after).length = 0) := by simp
  have hmain : estimateResources (.decoded (before ++ reg :: after)) host model signal
      = (reg.CPUUsed / (host.cpuCount : ℚ),
          ((reg.MemUsedBytes : ℚ) / (host.memTotal : ℚ)) * 100, reg.Time) := by
    simp only [estimateResources, loadHistory, hlen, if_false, hfilter,
      List.getLast?_append, List.getLast?_singleton, Option.or_some]
  exact ⟨hmain, by rw [hmain]⟩

/-- Witness of C9 amended: in the history `[heavyEntry, lightEntry, otherEntry]` the
request of `jobA` matches the first two entries and gets the values of the later
one, `lightEntry`. -/
theorem C9_last_match_wins_witness :
    estimateResources (.decoded ([heavyEntry] ++ lightEntry :: [otherEntry])) sampleHost
        jobA.Payload.Model jobA.Payload.Signal
      = (lightEntry.CPUUsed / (sampleHost.cpuCount : ℚ),
          ((lightEntry.MemUsedBytes : ℚ) / (sampleHost.memTotal : ℚ)) * 100, lightEntry.Time) :=
  (C9_last_match_wins sampleHost jobA.Payload.Model jobA.Payload.Signal [heavyEntry]
    [otherEntry] lightEntry (by decide)
    (List.isPrefixOf_iff_prefix.mp (by decide))
    (by
      intro e he h
      rw [List.mem_singleton] at he
      subst he
      exact absurd h.1 (by decide))).1

theorem workerProcessItem_not_processed_iff (rnd : ℚ → ℚ) (env : PassInputs)
    (job : JobRequest) (rest : List JobRequest)
    (cpuCurrent memCurrent cpuRequired memRequired timeEstimate : ℚ)
    (hsample : getCurrentResources env.cpuPercent env.memInfo = .ok (cpuCurrent, memCurrent))
    (hestimate : estimateResources env.history env.host job.Payload.Model job.Payload.Signal
      = (cpuRequired, memRequired, timeEstimate)) :
    workerProcessItem rnd env (job :: rest) ≠ some (.processed job, rest)
      ↔ insufficientResources rnd cpuCurrent memCurrent cpuRequired memRequired = true := by
  rw [workerProcessItem_sampled rnd env job rest _ _ _ _ _ hsample hestimate]
  cases hins : insufficientResources rnd cpuCurrent memCurrent cpuRequired memRequired
  · simp
  · by_cases hlt : rest.length < 100
    · simp [trySend_of_lt rest job hlt]
    · simp [trySend_of_ge rest job (by omega)]

theorem insufficientResources_float64_default (cpuCurrent memCurrent estimate : ℚ)
    (hcpu : roundFloat64 cpuCurrent = cpuCurrent) (hmem : roundFloat64 memCurrent = memCurrent)
    (hd : |estimate - 1 / 100| ≤ 1 / 10 ^ 18) :
    insufficientResources roundFloat64 cpuCurrent memCurrent estimate estimate = true
      ↔ cpuCurrent > 8999 / 100 ∨ memCurrent > 8999 / 100 := by
  simp only [insufficientResources, CPU_LIMIT, MEM_LIMIT, Bool.or_eq_true, decide_eq_true_eq,
    gt_iff_lt]
  rw [float64_sum_default_gt_90 cpuCurrent estimate hcpu hd,
    float64_sum_default_gt_90 memCurrent estimate hmem hd]

/-- C10: when `teste.json` cannot be opened or decoded, or holds an empty history, or
no entry passes the estimator's matching test for the request, `estimateResources`
returns exactly `(0.01, 0.01, 0.1)`; with that estimate the test of line 738 holds
exactly when the current CPU usage or the current memory usage is above 89.99, so
the worker does not process the job only then.  The threshold is proved in exact
arithmetic for all values, and in `float64` arithmetic for all `float64` usages, with
the estimate 0.01 taken exactly or as its `float64`. -/
theorem C10_estimator_defaults (host : HostInfo) (model signal : GoString) :
    estimateResources .unopenable host model signal = (1 / 100, 1 / 100, 1 / 10)
    ∧ estimateResources .undecodable host model signal = (1 / 100, 1 / 100, 1 / 10)
    ∧ estimateResources (.decoded []) host model signal = (1 / 100, 1 / 100, 1 / 10)
    ∧ (∀ history : List HistoryEntry,
        (∀ e ∈ history, ¬ (Base e.Model = Base model ∧ Base signal <+: Base e.Signal)) →
        estimateResources (.decoded history) host model signal = (1 / 100, 1 / 100, 1 / 10))
    ∧ (∀ cpuCurrent memCurrent : ℚ,
        insufficientResources id cpuCurrent memCurrent (1 / 100) (1 / 100) = true
          ↔ cpuCurrent > 8999 / 100 ∨ memCurrent > 8999 / 100)
    ∧ (∀ (env : PassInputs) (job : JobRequest) (rest : List JobRequest)
        (cpuCurrent memCurrent : ℚ),
        getCurrentResources env.cpuPercent env.memInfo = .ok (cpuCurrent, memCurrent) →
        estimateResources env.history env.host job.Payload.Model job.Payload.Signal
          = (1 / 100, 1 / 100, 1 / 10) →
        (workerProcessItem id env (job :: rest) ≠ some (.processed job, rest)
          ↔ cpuCurrent > 8999 / 100 ∨ memCurrent > 8999 / 100))
    ∧ (∀ cpuCurrent memCurrent : ℚ,
        roundFloat64 cpuCurrent = cpuCurrent → roundFloat64 memCurrent = memCurrent →
        ((insufficientResources roundFloat64 cpuCurrent memCurrent (1 / 100) (1 / 100) = true
            ↔ cpuCurrent > 8999 / 100 ∨ memCurrent > 8999 / 100)
          ∧ (insufficientResources roundFloat64 cpuCurrent memCurrent
                (roundFloat64 (1 / 100)) (roundFloat64 (1 / 100)) = true
            ↔ cpuCurrent > 8999 / 100 ∨ memCurrent > 8999 / 100)))
    ∧ (∀ (env : PassInputs) (job : JobRequest) (rest : List JobRequest)
        (cpuCurrent memCurrent : ℚ),
        roundFloat64 cpuCurrent = cpuCurrent → roundFloat64 memCurrent = memCurrent →
        getCurrentResources env.cpuPercent env.memInfo = .ok (cpuCurrent, memCurrent) →
        estimateResources env.history env.host job.Payload.Model job.Payload.Signal
          = (1 / 100, 1 / 100, 1 / 10) →
        (workerProcessItem roundFloat64 env (job :: rest) ≠ some (.processed job, rest)
          ↔ cpuCurrent > 8999 / 100 ∨ memCurrent > 8999 / 100)) := by
  have htest : ∀ cpuCurrent memCurrent : ℚ,
      insufficientResources id cpuCurrent memCurrent (1 / 100) (1 / 100) = true
        ↔ cpuCurrent > 8999 / 100 ∨ memCurrent > 8999 / 100 := by
    intro cpuCurrent memCurrent
    simp only [insufficientResources, id, CPU_LIMIT, MEM_LIMIT, Bool.or_eq_true,
      decide_eq_true_eq]
    constructor
    · rintro (h | h)
      · left; linarith
      · right; linarith
    · rintro (h | h)
      · left; linarith
      · right; linarith
  have hexact : |(1 / 100 : ℚ) - 1 / 100| ≤ 1 / 10 ^ 18 := by norm_num
  refine ⟨rfl, rfl, rfl, estimateResources_of_no_match host model signal, htest, ?_, ?_, ?_⟩
  · intro env job rest cpuCurrent memCurrent hsample hestimate
    rw [workerProcessItem_not_processed_iff id env job rest _ _ _ _ _ hsample hestimate, htest]
  · intro cpuCurrent memCurrent hcpu hmem
    exact ⟨insufficientResources_float64_default cpuCurrent memCurrent _ hcpu hmem hexact,
      insufficientResources_float64_default cpuCurrent memCurrent _ hcpu hmem
        roundFloat64_default_near⟩
  · intro env job rest cpuCurrent memCurrent hcpu hmem hsample hestimate
    rw [workerProcessItem_not_processed_iff roundFloat64 env job rest _ _ _ _ _ hsample
      hestimate]
    exact insufficientResources_float64_default cpuCurrent memCurrent _ hcpu hmem hexact

/-! ## `normalizeImage`: rounding of the scaled maximum -/

theorem roundFloat64_25 : roundFloat64 25 = 25 := by
  rw [roundFloat64_of_bounds 25 4 (25 * 2 ^ 48) (by norm_num) (by norm_num) (by norm_num)
    (by norm_num) (by norm_num)]
  norm_num

theorem roundFloat64_scale_25 : roundFloat64 (255 / 25) = 5742089524897382 / 2 ^ 49 := by
  rw [roundFloat64_of_bounds (255 / 25) 3 5742089524897382 (by norm_num) (by norm_num)
    (by norm_num) (by norm_num) (by norm_num [abs_lt])]
  norm_num

theorem roundFloat64_top_25 :
    roundFloat64 (25 * (5742089524897382 / 2 ^ 49)) = 8972014882652159 / 2 ^ 45 := by
  rw [roundFloat64_of_bounds (25 * (5742089524897382 / 2 ^ 49)) 7 8972014882652159
    (by norm_num) (by norm_num) (by norm_num) (by norm_num) (by norm_num [abs_lt])]
  norm_num

theorem toUint8_of_floor (x : ℚ) (k : Nat) (hk : k < 256) (hlo : (k : ℚ) ≤ x)
    (hhi : x < (k : ℚ) + 1) : toUint8 x = k := by
  have hx : 0 ≤ x := le_trans (Nat.cast_nonneg k) hlo
  have hfloor : ⌊x⌋ = (k : Int) := Int.floor_eq_iff.mpr ⟨by exact_mod_cast hlo, by exact_mod_cast hhi⟩
  simp only [toUint8, truncToInt, hx, if_true, hfloor]
  omega

theorem normalizeImage_float64_0_25 : normalizeImage roundFloat64 [0, 25] = [0, 254] := by
  have hfold : ([0, 25] : List ℚ).foldl minMaxStep (0, 0) = (0, 25) := by
    norm_num [List.foldl, minMaxStep]
  have hne : (25 : ℚ) ≠ 0 := by norm_num
  have hsub : (25 : ℚ) - 0 = 25 := by norm_num
  have hsub0 : (0 : ℚ) - 0 = 0 := by norm_num
  have hlow : normalizePixel roundFloat64 0 (roundFloat64 (255 / 25)) 0 = 0 := by
    simp only [normalizePixel, hsub0, roundFloat64_zero, zero_mul]
    exact toUint8_of_floor _ 0 (by norm_num) (by norm_num) (by norm_num)
  have htop : normalizePixel roundFloat64 0 (roundFloat64 (255 / 25)) 25 = 254 := by
    simp only [normalizePixel, hsub, roundFloat64_25, roundFloat64_scale_25, roundFloat64_top_25]
    exact toUint8_of_floor _ 254 (by norm_num) (by norm_num) (by norm_num)
  simp only [normalizeImage, hfold, if_pos hne, hsub, roundFloat64_25, List.map, hlow, htop]

theorem toUint8_le (x : ℚ) : toUint8 x ≤ 255 := by
  unfold toUint8
  omega

theorem foldl_minMaxStep (f : List ℚ) :
    ∀ acc : ℚ × ℚ,
      ((∀ x ∈ f, (f.foldl minMaxStep acc).1 ≤ x) ∧ (f.foldl minMaxStep acc).1 ≤ acc.1
        ∧ ((f.foldl minMaxStep acc).1 = acc.1 ∨ (f.foldl minMaxStep acc).1 ∈ f))
      ∧ ((∀ x ∈ f, x ≤ (f.foldl minMaxStep acc).2) ∧ acc.2 ≤ (f.foldl minMaxStep acc).2
        ∧ ((f.foldl minMaxStep acc).2 = acc.2 ∨ (f.foldl minMaxStep acc).2 ∈ f)) := by
  induction f with
  | nil => intro acc; simp
  | cons val rest ih =>
    intro acc
    obtain ⟨⟨hall, hle, hmem⟩, ⟨hall2, hle2, hmem2⟩⟩ := ih (minMaxStep acc val)
    simp only [List.foldl_cons]
    have hstep1 : (minMaxStep acc val).1 ≤ val ∧ (minMaxStep acc val).1 ≤ acc.1
        ∧ ((minMaxStep acc val).1 = acc.1 ∨ (minMaxStep acc val).1 = val) := by
      simp only [minMaxStep]
      split_ifs with h
      · exact ⟨le_refl _, h.le, Or.inr rfl⟩
      · exact ⟨not_lt.mp h, le_refl _, Or.inl rfl⟩
    have hstep2 : val ≤ (minMaxStep acc val).2 ∧ acc.2 ≤ (minMaxStep acc val).2
        ∧ ((minMaxStep acc val).2 = acc.2 ∨ (minMaxStep acc val).2 = val) := by
      simp only [minMaxStep]
      split_ifs with h
      · exact ⟨le_refl _, le_of_lt h, Or.inr rfl⟩
      · exact ⟨not_lt.mp h, le_refl _, Or.inl rfl⟩
    refine ⟨⟨?_, le_trans hle hstep1.2.1, ?_⟩, ⟨?_, le_trans hstep2.2.1 hle2, ?_⟩⟩
    · intro x hx
      rcases List.mem_cons.mp hx with rfl | hx
      · exact le_trans hle hstep1.1
      · exact hall x hx
    · rcases hmem with h | h
      · rcases hstep1.2.2 with h' | h'
        · exact Or.inl (h.trans h')
        · exact Or.inr (by rw [h, h']; exact List.mem_cons_self _ _)
      · exact Or.inr (List.mem_cons_of_mem _ h)
    · intro x hx
      rcases List.mem_cons.mp hx with rfl | hx
      · exact le_trans hstep2.1 hle2
      · exact hall2 x hx
    · rcases hmem2 with h | h
      · rcases hstep2.2.2 with h' | h'
        · exact Or.inl (h.trans h')
        · exact Or.inr (by rw [h, h']; exact List.mem_cons_self _ _)
      · exact Or.inr (List.mem_cons_of_mem _ h)

/-- The pair computed by the first loop of `normalizeImage` holds the least and the
greatest element of the input. -/
theorem minMax_spec (first : ℚ) (rest : List ℚ) :
    ((first :: rest).foldl minMaxStep (first, first)).1 ∈ first :: rest
    ∧ (∀ x ∈ first :: rest, ((first :: rest).foldl minMaxStep (first, first)).1 ≤ x)
    ∧ ((first :: rest).foldl minMaxStep (first, first)).2 ∈ first :: rest
    ∧ (∀ x ∈ first :: rest, x ≤ ((first :: rest).foldl minMaxStep (first, first)).2) := by
  obtain ⟨⟨hall, _, hmem⟩, ⟨hall2, _, hmem2⟩⟩ := foldl_minMaxStep (first :: rest) (first, first)
  refine ⟨?_, hall, ?_, hall2⟩
  · rcases hmem with h | h
    · rw [h]; exact List.mem_cons_self _ _
    · exact h
  · rcases hmem2 with h | h
    · rw [h]; exact List.mem_cons_self _ _
    · exact h

theorem normalizeImage_cons (rnd : ℚ → ℚ) (first : ℚ) (rest : List ℚ) :
    normalizeImage rnd (first :: rest) =
      if ((first :: rest).foldl minMaxStep (first, first)).2
          ≠ ((first :: rest).foldl minMaxStep (first, first)).1 then
        (first :: rest).map (normalizePixel rnd
          ((first :: rest).foldl minMaxStep (first, first)).1
          (rnd (255 / rnd (((first :: rest).foldl minMaxStep (first, first)).2
            - ((first :: rest).foldl minMaxStep (first, first)).1))))
      else (first :: rest).map (fun _ => 128) := by
  rfl

theorem normalizePixel_min (rnd : ℚ → ℚ) (h0 : rnd 0 = 0) (fMin scale : ℚ) :
    normalizePixel rnd fMin scale fMin = 0 := by
  simp only [normalizePixel, sub_self, h0, zero_mul]
  exact toUint8_of_floor _ 0 (by norm_num) (by norm_num) (by norm_num)

theorem normalizePixel_exact_max (fMin fMax : ℚ) (hne : fMax ≠ fMin) :
    normalizePixel id fMin (id (255 / id (fMax - fMin))) fMax = 255 := by
  have hd : fMax - fMin ≠ 0 := sub_ne_zero.mpr hne
  have hval : (fMax - fMin) * (255 / (fMax - fMin)) = 255 := by field_simp
  simp only [normalizePixel, id, hval]
  exact toUint8_of_floor _ 255 (by norm_num) (by norm_num) (by norm_num)

/-- In every arithmetic (`rnd` with `rnd 0 = 0`): `normalizeImage` keeps the length,
every output is at most 255, a non-constant input sends each position holding the
minimum to 0, and a constant input gives 128 everywhere. -/
theorem normalizeImage_rounded (rnd : ℚ → ℚ) (h0 : rnd 0 = 0) (f : List ℚ) :
    (normalizeImage rnd f).length = f.length
    ∧ (∀ y ∈ normalizeImage rnd f, y ≤ 255)
    ∧ ((∃ x ∈ f, ∃ y ∈ f, x ≠ y) → ∃ pixel : ℚ → Nat, normalizeImage rnd f = f.map pixel
        ∧ ∀ v ∈ f, (∀ x ∈ f, v ≤ x) → pixel v = 0)
    ∧ ((∀ x ∈ f, ∀ y ∈ f, x = y) → normalizeImage rnd f = f.map (fun _ => 128)) := by
  cases f with
  | nil => simp [normalizeImage]
  | cons first rest =>
    obtain ⟨hminMem, hminLe, hmaxMem, hmaxLe⟩ := minMax_spec first rest
    rw [normalizeImage_cons]
    refine ⟨?_, ?_, ?_, ?_⟩
    · split_ifs <;> simp
    · intro y hy
      split_ifs at hy
      · obtain ⟨v, _, rfl⟩ := List.mem_map.mp hy
        exact toUint8_le _
      · obtain ⟨v, _, rfl⟩ := List.mem_map.mp hy
        norm_num
    · rintro ⟨x, hx, y, hy, hxy⟩
      have hne : ((first :: rest).foldl minMaxStep (first, first)).2
          ≠ ((first :: rest).foldl minMaxStep (first, first)).1 := by
        intro heq
        apply hxy
        have hx1 := hminLe x hx
        have hx2 := hmaxLe x hx
        have hy1 := hminLe y hy
        have hy2 := hmaxLe y hy
        rw [heq] at hx2 hy2
        exact (le_antisymm hx2 hx1).trans (le_antisymm hy2 hy1).symm
      rw [if_pos hne]
      refine ⟨_, rfl, ?_⟩
      intro v hv hvmin
      have hveq : v = ((first :: rest).foldl minMaxStep (first, first)).1 :=
        le_antisymm (hvmin _ hminMem) (hminLe v hv)
      rw [hveq]
      exact normalizePixel_min rnd h0 _ _
    · intro hconst
      rw [if_neg (not_not.mpr (hconst _ hmaxMem _ hminMem))]

/-- In exact arithmetic (`rnd = id`) a non-constant input spans exactly `[0, 255]`:
each position holding the minimum maps to 0, each position holding the maximum maps
to 255, and every output is at most 255. -/
theorem normalizeImage_exact (f : List ℚ) (hdistinct : ∃ x ∈ f, ∃ y ∈ f, x ≠ y) :
    ∃ pixel : ℚ → Nat, normalizeImage id f = f.map pixel
      ∧ (∀ v ∈ f, (∀ x ∈ f, v ≤ x) → pixel v = 0)
      ∧ (∀ v ∈ f, (∀ x ∈ f, x ≤ v) → pixel v = 255)
      ∧ (∀ v ∈ f, pixel v ≤ 255) := by
  cases f with
  | nil => obtain ⟨x, hx, _⟩ := hdistinct; simp at hx
  | cons first rest =>
    obtain ⟨hminMem, hminLe, hmaxMem, hmaxLe⟩ := minMax_spec first rest
    obtain ⟨x, hx, y, hy, hxy⟩ := hdistinct
    have hne : ((first :: rest).foldl minMaxStep (first, first)).2
        ≠ ((first :: rest).foldl minMaxStep (first, first)).1 := by
      intro heq
      apply hxy
      have hx1 := hminLe x hx
      have hx2 := hmaxLe x hx
      have hy1 := hminLe y hy
      have hy2 := hmaxLe y hy
      rw [heq] at hx2 hy2
      exact (le_antisymm hx2 hx1).trans (le_antisymm hy2 hy1).symm
    rw [normalizeImage_cons, if_pos hne]
    refine ⟨_, rfl, ?_, ?_, fun v _ => toUint8_le _⟩
    · intro v hv hvmin
      have hveq : v = ((first :: rest).foldl minMaxStep (first, first)).1 :=
        le_antisymm (hvmin _ hminMem) (hminLe v hv)
      rw [hveq]
      exact normalizePixel_min id rfl _ _
    · intro v hv hvmax
      have hveq : v = ((first :: rest).foldl minMaxStep (first, first)).2 :=
        le_antisymm (hmaxLe v hv) (hvmax _ hmaxMem)
      rw [hveq]
      exact normalizePixel_exact_max _ _ hne

theorem normalizeImage_exact_0_25 : normalizeImage id [0, 25] = [0, 255] := by
  have hfold : ([0, 25] : List ℚ).foldl minMaxStep (0, 0) = (0, 25) := by
    norm_num [List.foldl, minMaxStep]
  have hne : (25 : ℚ) ≠ 0 := by norm_num
  have hlow : normalizePixel id 0 (id (255 / id (25 - 0))) 0 = 0 :=
    normalizePixel_min id rfl _ _
  have htop : normalizePixel id 0 (id (255 / id (25 - 0))) 25 = 255 :=
    normalizePixel_exact_max 0 25 hne
  simp only [normalizeImage, hfold, if_pos hne, List.map, hlow, htop]

/-- C11: on the `float64` input `[0, 25]` (non-constant, maximum 25 at position 1)
`normalizeImage` returns `[0, 254]`: the position holding the maximum maps to 254,
not 255, because `25 * (255 / 25)` rounds to `255 - 2^(-45)` and `uint8(...)` discards
the fraction.  With the same input in exact arithmetic the result is `[0, 255]`. -/
theorem C11_maximum_maps_to_254 :
    normalizeImage roundFloat64 [0, 25] = [0, 254]
    ∧ (∀ x ∈ ([0, 25] : List ℚ), x ≤ 25)
    ∧ roundFloat64 0 = 0 ∧ roundFloat64 25 = 25
    ∧ roundFloat64 (roundFloat64 (25 - 0) * roundFloat64 (255 / roundFloat64 (25 - 0)))
        = 255 - 1 / 2 ^ 45
    ∧ normalizeImage id [0, 25] = [0, 255] := by
  refine ⟨normalizeImage_float64_0_25, ?_, roundFloat64_zero, roundFloat64_25, ?_,
    normalizeImage_exact_0_25⟩
  · intro x hx
    simp only [List.mem_cons, List.mem_singleton, List.not_mem_nil, or_false] at hx
    rcases hx with rfl | rfl <;> norm_num
  · have hsub : (25 : ℚ) - 0 = 25 := by norm_num
    rw [hsub, roundFloat64_25, roundFloat64_scale_25, roundFloat64_top_25]
    norm_num

/-! ## Solvers: the tracked residual is the residual of the iterate -/

theorem MulVec_AddScaledVec {m n : Nat} (H : Fin m → Fin n → ℚ) (f p : Fin n → ℚ)
    (alpha : ℚ) :
    MulVec H (AddScaledVec f alpha p) = AddScaledVec (MulVec H f) alpha (MulVec H p) := by
  funext i
  simp only [MulVec, AddScaledVec, mul_add, Finset.sum_add_distrib, Finset.mul_sum]
  congr 1
  apply Finset.sum_congr rfl
  intro j _
  ring

theorem residual_update {m n : Nat} (H : Fin m → Fin n → ℚ) (gVec r : Fin m → ℚ)
    (f p : Fin n → ℚ) (alpha : ℚ) (hr : r = SubVec gVec (MulVec H f)) :
    AddScaledVec r (-alpha) (MulVec H p)
      = SubVec gVec (MulVec H (AddScaledVec f alpha p)) := by
  rw [MulVec_AddScaledVec, hr]
  funext i
  simp only [AddScaledVec, SubVec]
  ring

theorem cgnrInit_tracks {m n : Nat} (H : Fin m → Fin n → ℚ) (gVec : Fin m → ℚ) :
    cgnrTracksResidual H gVec (cgnrInit H gVec) :=
  ⟨rfl, rfl⟩

theorem cgnrPass_tracks {m n : Nat} (H : Fin m → Fin n → ℚ) (gVec : Fin m → ℚ) (i : Int)
    (s : CGNRState m n) (hs : cgnrTracksResidual H gVec s) :
    cgnrTracksResidual H gVec (cgnrPass H i s) :=
  ⟨residual_update H gVec s.r s.f s.p _ hs.1, rfl⟩

theorem cgnrLoop_tracks {m n : Nat} (norm : (Fin m → ℚ) → ℚ) (H : Fin m → Fin n → ℚ)
    (gVec : Fin m → ℚ) (tol initialResidualNorm : ℚ) :
    ∀ (remaining : Nat) (i : Int) (s : CGNRState m n), cgnrTracksResidual H gVec s →
      cgnrTracksResidual H gVec (cgnrLoop norm H tol initialResidualNorm remaining i s) := by
  intro remaining
  induction remaining with
  | zero => intro i s hs; exact hs
  | succ k ih =>
    intro i s hs
    rw [cgnrLoop]
    split_ifs
    · exact cgnrPass_tracks H gVec i s hs
    · exact ih (i + 1) _ (cgnrPass_tracks H gVec i s hs)

theorem cgneInit_tracks {m n : Nat} (H : Fin m → Fin n → ℚ) (gVec : Fin m → ℚ) :
    cgneTracksResidual H gVec (cgneInit H gVec) :=
  rfl

theorem cgnePass_tracks {m n : Nat} (H : Fin m → Fin n → ℚ) (gVec : Fin m → ℚ) (i : Int)
    (s : CGNEState m n) (alphaNum alphaDen : ℚ) (hs : cgneTracksResidual H gVec s) :
    cgneTracksResidual H gVec (cgnePass H i s (MulVec H s.p) alphaNum alphaDen) :=
  residual_update H gVec s.r s.f s.p _ hs

theorem cgneLoop_tracks {m n : Nat} (norm : (Fin m → ℚ) → ℚ) (H : Fin m → Fin n → ℚ)
    (gVec : Fin m → ℚ) (tol initialResidualNorm : ℚ) :
    ∀ (remaining : Nat) (i : Int) (s : CGNEState m n), cgneTracksResidual H gVec s →
      cgneTracksResidual H gVec (cgneLoop norm H tol initialResidualNorm remaining i s) := by
  intro remaining
  induction remaining with
  | zero => intro i s hs; exact hs
  | succ k ih =>
    intro i s hs
    rw [cgneLoop]
    split_ifs
    · exact hs
    · dsimp only
      split_ifs
      · exact cgnePass_tracks H gVec i s _ _ hs
      · exact ih (i + 1) _ (cgnePass_tracks H gVec i s _ _ hs)

/-- C12: in exact arithmetic, for every `m`-by-`n` matrix `H` and length-`m` signal
`g`, the state of `reconstructCGNR` satisfies `r = g - H*f` and `z = H^T * r` before
the loop, after each pass, and on leaving the loop; the state of `reconstructCGNE`
satisfies `r = g - H*f` likewise.  Hence the residual whose norm the convergence test
reads is the residual of the current iterate, and the reported final error
`norm (g - H*f) / (norm g + MIN_DIV)` is the norm of the tracked residual of the
final state over `norm g + MIN_DIV`. -/
theorem C12_residual_tracking {m n : Nat} (norm : (Fin m → ℚ) → ℚ) (H : Fin m → Fin n → ℚ)
    (gVec : Fin m → ℚ) (tol initialResidualNorm : ℚ) :
    (cgnrTracksResidual H gVec (cgnrInit H gVec)
      ∧ (∀ (i : Int) (s : CGNRState m n), cgnrTracksResidual H gVec s →
          cgnrTracksResidual H gVec (cgnrPass H i s))
      ∧ (∀ (remaining : Nat) (i : Int) (s : CGNRState m n), cgnrTracksResidual H gVec s →
          cgnrTracksResidual H gVec (cgnrLoop norm H tol initialResidualNorm remaining i s)))
    ∧ (cgneTracksResidual H gVec (cgneInit H gVec)
      ∧ (∀ (i : Int) (s : CGNEState m n) (alphaNum alphaDen : ℚ),
          cgneTracksResidual H gVec s →
          cgneTracksResidual H gVec (cgnePass H i s (MulVec H s.p) alphaNum alphaDen))
      ∧ (∀ (remaining : Nat) (i : Int) (s : CGNEState m n), cgneTracksResidual H gVec s →
          cgneTracksResidual H gVec (cgneLoop norm H tol initialResidualNorm remaining i s)))
    ∧ (∀ (g : List ℚ) (maxIterations : Int) (hdims : 0 < m ∧ 0 < n ∧ g.length = m),
        gVec = (fun i => g.get (i.cast hdims.2.2.symm)) →
        (∃ s : CGNRState m n, s.r = SubVec gVec (MulVec H s.f) ∧ s.z = MulVecT H s.r
          ∧ reconstructCGNR norm H g maxIterations tol
            = some ⟨List.ofFn s.f, s.numberIterations, norm s.r / (norm gVec + MIN_DIV)⟩)
        ∧ (∃ s : CGNEState m n, s.r = SubVec gVec (MulVec H s.f)
          ∧ reconstructCGNE norm H g maxIterations tol
            = some ⟨List.ofFn s.f, s.finalIterations, norm s.r / (norm gVec + MIN_DIV)⟩)) := by
  refine ⟨⟨cgnrInit_tracks H gVec, cgnrPass_tracks H gVec, cgnrLoop_tracks norm H gVec tol _⟩,
    ⟨cgneInit_tracks H gVec, fun i s a b hs => cgnePass_tracks H gVec i s a b hs,
      cgneLoop_tracks norm H gVec tol _⟩, ?_⟩
  intro g maxIterations hdims hg
  subst hg
  constructor
  · have hfinal := cgnrLoop_tracks norm H (fun i => g.get (i.cast hdims.2.2.symm)) tol
      (norm (cgnrInit H (fun i => g.get (i.cast hdims.2.2.symm))).r) maxIterations.toNat 0 _
      (cgnrInit_tracks H _)
    refine ⟨_, hfinal.1, hfinal.2, ?_⟩
    rw [reconstructCGNR, dif_pos hdims]
    simp only
    rw [← hfinal.1]
  · have hfinal := cgneLoop_tracks norm H (fun i => g.get (i.cast hdims.2.2.symm)) tol
      (norm (cgneInit H (fun i => g.get (i.cast hdims.2.2.symm))).r) maxIterations.toNat 0 _
      (cgneInit_tracks H _)
    refine ⟨_, hfinal, ?_⟩
    rw [reconstructCGNE, dif_pos hdims]
    simp only
    rw [← hfinal]

end Server
